import Mathlib

/-
Verification development for the DocumentSearch repository.

This file gives a shallow embedding of the algorithmic core of the
repository — `pagerank.py` (link graph and PageRank), `tfidf_search.py`
(corpus index), `filesearcher.py` (scan worker) and the rank-combining
fragment of `DocumentSearch.py` — and proves or refutes the frozen
specification claims about it.

Modelling conventions:
* Python floats are modelled by rationals (`ℚ`); every arithmetic
  divergence proved below is caused by aliasing or control flow and is
  independent of the float/rational distinction.
* Python dictionaries (which preserve insertion order) are modelled by
  association lists with unique keys; Python sets by duplicate-free
  lists (set iteration only ever feeds commutative folds here).
* Python exceptions are modelled by `Option` (`none` = the call raises).
* Mutable objects shared between containers are modelled by a single
  canonical store (`Graph.nodes`), indexed by the node's dense index.
-/

namespace DocSearch

/-! ## Link graph (`pagerank.py`, class `GraphNode` / `Graph`) -/

/-- One graph node: `GraphNode.__init__` fields `index`, `node_id`,
`in_links` (a Python set of source indices) and `out_counts`.  The
Python set is modelled as a duplicate-free list; set iteration order is
unspecified in Python and the only iteration over `in_links` feeds a
commutative sum, so fixing one order is faithful. -/
structure GraphNode where
  index : Nat
  node_id : String
  in_links : List Nat
  out_counts : Nat
deriving DecidableEq, Repr

instance : Inhabited GraphNode := ⟨⟨0, "", [], 0⟩⟩

/-- Python `set.add`: a no-op when the element is already present. -/
def insertLink (s : List Nat) (i : Nat) : List Nat :=
  if i ∈ s then s else s ++ [i]

/-- The graph owns all nodes.  In Python `_node_map` and `_node_list`
hold the same mutable `GraphNode` objects; both views are recovered from
the single list `nodes` (map lookup = first node with the given id,
list indexing = positional indexing).  Iteration order of `_node_map`
(insertion order) coincides with the order of `nodes`. -/
structure Graph where
  nodes : List GraphNode
deriving DecidableEq, Repr

/-- The empty graph (`Graph.__init__`). -/
def Graph.empty : Graph := ⟨[]⟩

/-- `self._node_map[node_id]` as a partial lookup. -/
def Graph.findNode (g : Graph) (node_id : String) : Option GraphNode :=
  g.nodes.find? (fun n => n.node_id == node_id)

/-- Replace the node stored at list position `i` (Python mutates the
`GraphNode` object in place; position and `index` field coincide for
graphs built through the public interface). -/
def modifyIdx (f : GraphNode → GraphNode) : Nat → List GraphNode → List GraphNode
  | _, [] => []
  | 0, n :: t => f n :: t
  | i + 1, n :: t => n :: modifyIdx f i t

/-- `Graph.add_node`: idempotent insertion, returning the (existing or
fresh) node together with the updated graph. -/
def Graph.addNodePair (g : Graph) (node_id : String) : Graph × GraphNode :=
  match g.findNode node_id with
  | some n => (g, n)
  | none =>
    let n : GraphNode := ⟨g.nodes.length, node_id, [], 0⟩
    (⟨g.nodes ++ [n]⟩, n)

/-- `Graph.add_node`, keeping only the graph. -/
def Graph.addNode (g : Graph) (node_id : String) : Graph :=
  (g.addNodePair node_id).1

/-- `Graph.add_link`.  Returns `none` exactly when Python raises
(`self._node_map[source_id]` raises `KeyError` when the source id was
never added; the self-reference test happens first). -/
def Graph.addLink (g : Graph) (source_id target_id : String) : Option Graph :=
  if source_id = target_id then some g
  else
    match g.findNode source_id with
    | none => none
    | some source_node =>
      let p := g.addNodePair target_id
      let g1 := p.1
      let target_node := p.2
      if source_node.index ∈ target_node.in_links then some g1
      else
        some ⟨modifyIdx (fun n => { n with out_counts := n.out_counts + 1 }) source_node.index
          (modifyIdx (fun n => { n with in_links := insertLink n.in_links source_node.index })
            target_node.index g1.nodes)⟩

/-- `Graph.add_links`: for each pair, add both endpoints then the link. -/
def Graph.addLinks (g : Graph) (links : List (String × String)) : Option Graph :=
  links.foldlM (fun g p => ((g.addNode p.1).addNode p.2).addLink p.1 p.2) g

/-- `Graph.add_node_with_refs`: add the node, then a link to every ref. -/
def Graph.addNodeWithRefs (g : Graph) (node_id : String) (node_refs : List String) :
    Option Graph :=
  node_refs.foldlM (fun g r => g.addLink node_id r) (g.addNode node_id)

/-! ## PageRank construction (`pagerank.py`, class `PageRank`) -/

/-- `PageRank._add_link_to_all_nodes`: every node (including the source
itself) gains `source_index` in its in-link set. -/
def Graph.addLinkToAllNodes (g : Graph) (source_index : Nat) : Graph :=
  ⟨g.nodes.map (fun n => { n with in_links := insertLink n.in_links source_index })⟩

/-- One step of `PageRank._apply_sink_linking`'s loop, visiting the node
at position `i`: a node with zero out-degree has its `out_counts` set to
the (pre-computed) node count and is linked to every node. -/
def applySinkStep (number_of_nodes : Nat) (g : Graph) (i : Nat) : Graph :=
  match g.nodes.get? i with
  | none => g
  | some n =>
    if n.out_counts = 0 then
      Graph.addLinkToAllNodes ⟨modifyIdx (fun m => { m with out_counts := number_of_nodes }) i g.nodes⟩ n.index
    else g

/-- `PageRank._apply_sink_linking`: visit the nodes in insertion order,
rewriting each sink as it is encountered. -/
def Graph.applySinkLinking (g : Graph) : Graph :=
  (List.range g.nodes.length).foldl (applySinkStep g.nodes.length) g

/-- `PageRank.__init__`: `copy.copy` is a *shallow* copy, so the
`PageRank`'s graph and the caller's graph share `_node_map`,
`_node_list` and every `GraphNode` object.  Sink linking therefore
mutates the original graph as well; the pair returned here is
(the ranker's graph, the original graph as observable after
`__init__`), and the two components are the same state. -/
def pageRankInit (g : Graph) : Graph × Graph :=
  let h := g.applySinkLinking
  (h, h)

/-! ## PageRank iteration (`PageRank.calculate`)

Rank vectors are lists of rationals indexed by node index.  The Python
loop keeps two local variables `ranks` and `next_ranks`; after the first
pass the assignment `ranks = next_ranks` makes both names refer to the
*same* list object, so from the second pass on the update happens in
place (each node reads values already overwritten in the same pass) and
the delta computation compares the list with itself.  The boolean
`aliased` below records whether that assignment has happened yet. -/

/-- `PageRank._out_count`: out-degree of the node at index `idx`. -/
def Graph.outCount (g : Graph) (idx : Nat) : Nat :=
  ((g.nodes.get? idx).map GraphNode.out_counts).getD 0

/-- `sum(ranks[idx] / self._out_count(idx) for idx in page.in_links)`.
The summation order over a Python set is unspecified; ℚ addition is
commutative, so summing in the model's list order is faithful. -/
def inLinkSum (g : Graph) (ranks : List ℚ) (page : GraphNode) : ℚ :=
  (page.in_links.map (fun idx => ((ranks.get? idx).getD 0) / ((g.outCount idx : ℚ)))).sum

/-- The rank-update pass: for each page (in `_node_map` iteration order,
which is insertion order) write
`damping_per_page + damping * Σ ranks[j]/out(j)` into position
`page.index` of the write vector `next`, reading from the read vector
`ranks`.  When the two vectors are the same list this is exactly the
in-place pass the aliased code performs. -/
def writePass (g : Graph) (damping_per_page damping : ℚ) : List GraphNode → List ℚ → List ℚ → List ℚ
  | [], _, next => next
  | page :: rest, ranks, next =>
    writePass g damping_per_page damping rest ranks
      (next.set page.index (damping_per_page + damping * inLinkSum g ranks page))

/-- The same pass when `ranks` and `next_ranks` are the one aliased list:
each page reads the vector into which earlier pages of the same pass have
already been written (in-place / Gauss–Seidel-style update). -/
def writePassAliased (g : Graph) (damping_per_page damping : ℚ) : List GraphNode → List ℚ → List ℚ
  | [], v => v
  | page :: rest, v =>
    writePassAliased g damping_per_page damping rest
      (v.set page.index (damping_per_page + damping * inLinkSum g v page))

/-- The delta: `sum(abs(next_rank - ranks[idx]) for idx, next_rank in enumerate(next_ranks))`. -/
def totalAbsDiff (next ranks : List ℚ) : ℚ :=
  (List.zipWith (fun a b => |a - b|) next ranks).sum

/-- The `while delta > epsilon` loop of `PageRank.calculate`.  `fuel`
bounds the number of iterations so the function is total; for
`epsilon > 0` any `fuel ≥ 3` yields the loop's actual result (proved in
`calcLoop_fuel_stable` below), because once aliased the computed delta
is identically `0`.  In the aliased state a single pass is performed
with read vector = write vector (in-place), and the delta compares the
resulting list with itself. -/
def calcLoop (g : Graph) (damping damping_per_page epsilon : ℚ) :
    Nat → Bool → List ℚ → ℚ → Nat → Option (List ℚ × Nat)
  | 0, _, _, _, _ => none
  | fuel + 1, aliased, ranks, delta, count =>
    if delta > epsilon then
      if aliased then
        let v := writePassAliased g damping_per_page damping g.nodes ranks
        calcLoop g damping damping_per_page epsilon fuel true v (totalAbsDiff v v) (count + 1)
      else
        let next := writePass g damping_per_page damping g.nodes ranks (List.replicate g.nodes.length 0)
        calcLoop g damping damping_per_page epsilon fuel true next (totalAbsDiff next ranks) (count + 1)
    else some (ranks, count)

/-- Python's stable descending sort `list.sort(reverse=True, key=...)`:
a stable merge sort on the comparison "rank of `a` is at least rank of
`b`".  `List.mergeSort` is stable, and a stable sort's output is
determined by the comparison, so this coincides with CPython's timsort. -/
def sortByRankDesc (l : List (String × ℚ)) : List (String × ℚ) :=
  List.mergeSort l (fun a b => decide (b.2 ≤ a.2))

/-- `PageRank.calculate`, parametrised by loop fuel.  Returns the pages
with their final ranks sorted descending, together with the iteration
count.  `none` models non-termination within the given fuel. -/
def Graph.calculate (g : Graph) (damping epsilon : ℚ) (fuel : Nat) :
    Option (List (String × ℚ) × Nat) :=
  let page_count := g.nodes.length
  let damping_per_page := (1 - damping) / (page_count : ℚ)
  let ranks : List ℚ := List.replicate page_count (1 / ((g.nodes.length : ℚ)))
  match calcLoop g damping damping_per_page epsilon fuel false ranks 1 0 with
  | none => none
  | some (final, iteration_count) =>
    some (sortByRankDesc ((g.nodes.map GraphNode.node_id).zip final), iteration_count)

/-! ## Loop lemmas for `calculate`

The Python `while` loop has no fuel; the lemmas below show that for
`epsilon > 0` the fuelled model is insensitive to any fuel ≥ 3, i.e. the
actual loop behaviour is fully captured: the loop always terminates
after at most two iterations, because once the two rank variables alias
the computed delta is identically zero. -/

/-- Leaving the loop when the delta test fails. -/
theorem calcLoop_exit (g : Graph) (d dpp eps : ℚ) (fuel : Nat) (aliased : Bool)
    (ranks : List ℚ) (delta : ℚ) (count : Nat) (h : ¬(delta > eps)) :
    calcLoop g d dpp eps (fuel + 1) aliased ranks delta count = some (ranks, count) := by
  unfold calcLoop
  rw [if_neg h]

/-- The first loop iteration: a genuine two-vector (Jacobi) pass, after
which the vectors alias. -/
theorem calcLoop_step_fresh (g : Graph) (d dpp eps : ℚ) (fuel : Nat)
    (ranks : List ℚ) (delta : ℚ) (count : Nat) (h : delta > eps) :
    calcLoop g d dpp eps (fuel + 1) false ranks delta count =
      calcLoop g d dpp eps fuel true
        (writePass g dpp d g.nodes ranks (List.replicate g.nodes.length 0))
        (totalAbsDiff (writePass g dpp d g.nodes ranks (List.replicate g.nodes.length 0)) ranks)
        (count + 1) := by
  unfold calcLoop
  rw [if_pos h]
  simp only [Bool.false_eq_true, if_false]
  cases fuel with
  | zero => rfl
  | succ m => rfl

/-- Any later loop iteration: an in-place pass, with the delta computed
against the list itself. -/
theorem calcLoop_step_aliased (g : Graph) (d dpp eps : ℚ) (fuel : Nat)
    (ranks : List ℚ) (delta : ℚ) (count : Nat) (h : delta > eps) :
    calcLoop g d dpp eps (fuel + 1) true ranks delta count =
      calcLoop g d dpp eps fuel true (writePassAliased g dpp d g.nodes ranks)
        (totalAbsDiff (writePassAliased g dpp d g.nodes ranks)
          (writePassAliased g dpp d g.nodes ranks))
        (count + 1) := by
  unfold calcLoop
  rw [if_pos h]
  simp only [if_true]
  cases fuel with
  | zero => rfl
  | succ m => rfl

/-- Comparing a rank list with itself yields delta 0. -/
theorem totalAbsDiff_self (v : List ℚ) : totalAbsDiff v v = 0 := by
  induction v with
  | nil => rfl
  | cons a t ih =>
    unfold totalAbsDiff at ih ⊢
    simp only [List.zipWith_cons_cons, List.sum_cons, ih, sub_self, abs_zero, zero_add]

/-- For positive epsilon the loop's result does not depend on the fuel
once the fuel is at least 3: the loop runs at most two iterations. -/
theorem calcLoop_fuel_stable (g : Graph) (d dpp eps : ℚ) (heps : 0 < eps)
    (r : List ℚ) (fuel : Nat) (h : 3 ≤ fuel) :
    calcLoop g d dpp eps fuel false r 1 0 = calcLoop g d dpp eps 3 false r 1 0 := by
  obtain ⟨k, rfl⟩ : ∃ k, fuel = k + 3 := ⟨fuel - 3, by omega⟩
  by_cases h1 : (1 : ℚ) > eps
  · rw [show k + 3 = (k + 2) + 1 by omega, calcLoop_step_fresh g d dpp eps (k + 2) r 1 0 h1,
      show (3 : Nat) = 2 + 1 by omega, calcLoop_step_fresh g d dpp eps 2 r 1 0 h1]
    by_cases h2 : totalAbsDiff
        (writePass g dpp d g.nodes r (List.replicate g.nodes.length 0)) r > eps
    · rw [show k + 2 = (k + 1) + 1 by omega, calcLoop_step_aliased g d dpp eps (k + 1) _ _ 1 h2,
        show (2 : Nat) = 1 + 1 by omega, calcLoop_step_aliased g d dpp eps 1 _ _ 1 h2]
      have h0 : ¬(totalAbsDiff (writePassAliased g dpp d g.nodes
          (writePass g dpp d g.nodes r (List.replicate g.nodes.length 0)))
          (writePassAliased g dpp d g.nodes
          (writePass g dpp d g.nodes r (List.replicate g.nodes.length 0))) > eps) := by
        rw [totalAbsDiff_self]
        linarith
      rw [calcLoop_exit g d dpp eps k true _ _ 2 h0, calcLoop_exit g d dpp eps 0 true _ _ 2 h0]
    · rw [calcLoop_exit g d dpp eps (k + 1) true _ _ 1 h2,
        calcLoop_exit g d dpp eps 1 true _ _ 1 h2]
  · rw [show k + 3 = (k + 2) + 1 by omega, calcLoop_exit g d dpp eps (k + 2) false r 1 0 h1,
      show (3 : Nat) = 2 + 1 by omega, calcLoop_exit g d dpp eps 2 false r 1 0 h1]

/-- `Graph.calculate` is likewise fuel-insensitive from fuel 3 on, so
evaluating the model at fuel 3 gives the Python loop's actual result. -/
theorem calculate_fuel_stable (g : Graph) (d eps : ℚ) (heps : 0 < eps)
    (fuel : Nat) (h : 3 ≤ fuel) :
    Graph.calculate g d eps fuel = Graph.calculate g d eps 3 := by
  unfold Graph.calculate
  simp only []
  rw [calcLoop_fuel_stable g d ((1 - d) / (g.nodes.length : ℚ)) eps heps _ fuel h]

/-! ## Generic helpers -/

/-- A fold whose step fixes the accumulator leaves it unchanged. -/
theorem foldl_fixed {α β : Type} (f : α → β → α) (a : α) (l : List β)
    (h : ∀ x ∈ l, f a x = a) : l.foldl f a = a := by
  induction l with
  | nil => rfl
  | cons b t ih =>
    rw [List.foldl_cons, h b (List.mem_cons_self b t)]
    exact ih (fun x hx => h x (List.mem_cons_of_mem b hx))

/-! ## Claim C2: does `PageRank.__init__` leave the original graph unchanged? -/

/-- A one-node graph: its single node is a sink. -/
def oneNodeGraph : Graph := Graph.empty.addNode "A"

/-- C2, counterexample: constructing a `PageRank` from the one-node graph
(via `copy.copy`, a shallow copy) mutates the original graph — sink
rewriting sets the node's `out_counts` to 1 and adds `0` to its own
`in_links` set, and those mutations are visible through the original
`Graph` because the node objects are shared.  So the original graph is
not left completely unchanged. -/
theorem C2_shallow_copy_mutates_original :
    (pageRankInit oneNodeGraph).2 ≠ oneNodeGraph := by decide

/-- A two-node cycle: both nodes have one outgoing link. -/
def twoCycleGraph : Graph :=
  (Graph.addLinks Graph.empty [("A", "B"), ("B", "A")]).getD Graph.empty


/-! ## The spec's example graph (links A→B, A→D, D→B, E→B, B→C)

This is the graph of the scenario in spec §8 and of `pagerank.py`'s own
`__main__` block. -/

/-- The example connection list. -/
def connectionsExample : List (String × String) :=
  [("A", "B"), ("A", "D"), ("D", "B"), ("E", "B"), ("B", "C")]

/-- The example graph built through `Graph.add_links` (the build always
succeeds; `getD` only discharges the `Option`). -/
def exampleGraph : Graph :=
  (Graph.addLinks Graph.empty connectionsExample).getD Graph.empty

/-- The ranker's graph for the example: `PageRank(graph)` applies sink
linking to the (shared) snapshot. -/
def exampleRankGraph : Graph := (pageRankInit exampleGraph).1

/-- The example rank graph, written out: node order A, B, D, E, C with
dense indices 0–4; the sink `C` has been rewritten to link to all five
nodes (out-degree 5). -/
def exG : Graph :=
  ⟨[⟨0, "A", [4], 2⟩, ⟨1, "B", [0, 2, 3, 4], 1⟩, ⟨2, "D", [0, 4], 1⟩,
    ⟨3, "E", [4], 1⟩, ⟨4, "C", [1, 4], 5⟩]⟩

/-- Evaluating the build: the ranker's graph is `exG`. -/
theorem exampleRankGraph_eq : exampleRankGraph = exG := by decide

/-- Default damping factor `0.85`. -/
def exDamping : ℚ := 17 / 20

/-- Default epsilon `1.0e-5`. -/
def exEpsilon : ℚ := 1 / 100000

/-- `damping_per_page = (1 - damping) / page_count` for the example. -/
def exDpp : ℚ := (1 - exDamping) / 5

/-- Initial uniform ranks `1/N`. -/
def exRanks0 : List ℚ := List.replicate 5 (1 / 5)

/-- The rank vector after the first (genuine Jacobi) pass. -/
def exRanks1 : List ℚ :=
  writePass exG exDpp exDamping exG.nodes exRanks0 (List.replicate 5 0)

/-- The rank vector the code produces in its second pass: an in-place
pass over the aliased list. -/
def exRanks2 : List ℚ := writePassAliased exG exDpp exDamping exG.nodes exRanks1

/-- The rank vector a genuine Jacobi second pass would produce. -/
def exJacobi2 : List ℚ :=
  writePass exG exDpp exDamping exG.nodes exRanks1 (List.replicate 5 0)

theorem exRanks1_eq :
    exRanks1 = [8/125, 489/1000, 149/1000, 8/125, 117/500] := by
  with_unfolding_all rfl

theorem exRanks2_eq :
    exRanks2 = [3489/50000, 560973/2000000, 198873/2000000, 3489/50000, 12327741/40000000] := by
  with_unfolding_all rfl

theorem exJacobi2_eq :
    exJacobi2 = [3489/50000, 27803/100000, 4849/50000, 3489/50000, 48543/100000] := by
  with_unfolding_all rfl

set_option maxRecDepth 4000 in
theorem calculate_exG_eq :
    Graph.calculate exG exDamping exEpsilon 3 =
      some ([("C", 12327741/40000000), ("B", 560973/2000000), ("D", 198873/2000000),
        ("A", 3489/50000), ("E", 3489/50000)], 2) := by
  with_unfolding_all rfl

/-! ## Claim C1: is every iteration a synchronous (Jacobi) update, and
does the loop stop exactly at the epsilon test? -/

/-- C1: refuted on the example graph (`code_bug`).  The assignment
`ranks = next_ranks` aliases the two rank lists, so (1) the code's
second pass is an in-place update and differs from the synchronous
Jacobi pass computed from the previous vector, and (2) the computed
delta from the second pass on compares the aliased list with itself and
is identically 0, so the loop stops after iteration 2 (iteration count 2
here) even though the true sum of absolute differences between the last
two successive rank vectors still exceeds epsilon.  Both facts are shown
at damping 0.85, epsilon 1e-5 on the spec's example graph. -/
theorem C1_update_not_jacobi_and_loop_stops_despite_large_delta :
    Graph.calculate exampleRankGraph exDamping exEpsilon 3 =
        some (sortByRankDesc ((exG.nodes.map GraphNode.node_id).zip exRanks2), 2) ∧
      exRanks2 ≠ exJacobi2 ∧
      totalAbsDiff exRanks2 exRanks1 > exEpsilon := by
  refine ⟨?_, ?_, ?_⟩
  · rw [exampleRankGraph_eq, calculate_exG_eq, exRanks2_eq]
    with_unfolding_all rfl
  · rw [exRanks2_eq, exJacobi2_eq]
    intro h
    have h1 : (560973/2000000 : ℚ) = 27803/100000 := by
      have h2 := congrArg (fun l => l.getD 1 0) h
      simpa using h2
    exact absurd h1 (of_decide_eq_true (by with_unfolding_all rfl))
  · rw [exRanks2_eq, exRanks1_eq]
    exact of_decide_eq_true (by with_unfolding_all rfl)

/-! ## Claim C6: does node B rank highest on the example graph? -/

/-- C6, counterexample: on the example graph with default damping 0.85
and epsilon 1e-5, the node with the highest returned rank is not B. -/
theorem C6_highest_ranked_is_not_B :
    (Graph.calculate exampleRankGraph exDamping exEpsilon 3).map
        (fun p => p.1.head?.map Prod.fst) ≠ some (some "B") := by
  rw [exampleRankGraph_eq, calculate_exG_eq]
  decide

/-- C6, amended: on the graph with links A→B, A→D, D→B, E→B, B→C and
default damping 0.85 / epsilon 1e-5, the computation terminates (after
2 iterations — the rank-aliasing bug makes the computed delta 0 from the
second pass on) and returns the descending list C, B, D, A, E: node C
receives the highest rank and B, the node with the most in-links, comes
second.  This is not only the aliasing bug: C collects B's entire rank
mass (B's only out-link) plus the rewritten sink's uniform
contribution, so the converged synchronous iteration also ranks C
(≈0.364) above B (≈0.321) — the spec's expectation that B ranks highest
does not hold for this graph under the specified algorithm at all. -/
theorem C6_example_graph_ranks_C_highest_not_B :
    (Graph.calculate exampleRankGraph exDamping exEpsilon 3).map
        (fun p => (p.1.map Prod.fst, p.2)) = some (["C", "B", "D", "A", "E"], 2) := by
  rw [exampleRankGraph_eq, calculate_exG_eq]
  with_unfolding_all rfl

/-! ## Claim C7: does graph construction ever raise?

Lemma toolkit: node-id presence and its preservation by the mutators. -/

/-- The node ids of a graph, in insertion order. -/
def Graph.ids (g : Graph) : List String := g.nodes.map GraphNode.node_id

theorem findNode_isSome_iff (g : Graph) (s : String) :
    (g.findNode s).isSome ↔ s ∈ g.ids := by
  unfold Graph.findNode Graph.ids
  rw [List.find?_isSome]
  constructor
  · rintro ⟨n, hn, hid⟩
    exact List.mem_map.mpr ⟨n, hn, beq_iff_eq.mp hid⟩
  · intro h
    obtain ⟨n, hn, hid⟩ := List.mem_map.mp h
    exact ⟨n, hn, beq_iff_eq.mpr hid⟩

theorem ids_addNode (g : Graph) (s : String) :
    (g.addNode s).ids = g.ids ∨ (g.addNode s).ids = g.ids ++ [s] := by
  unfold Graph.addNode Graph.addNodePair
  cases h : g.findNode s with
  | some n => left; rfl
  | none => right; simp [Graph.ids]

theorem mem_ids_addNode_self (g : Graph) (s : String) : s ∈ (g.addNode s).ids := by
  unfold Graph.addNode Graph.addNodePair
  cases h : g.findNode s with
  | some n =>
    have h1 : (g.findNode s).isSome := by rw [h]; rfl
    exact (findNode_isSome_iff g s).mp h1
  | none => simp [Graph.ids]

theorem mem_ids_addNode_mono (g : Graph) (s x : String) (h : x ∈ g.ids) :
    x ∈ (g.addNode s).ids := by
  rcases ids_addNode g s with he | he
  · rw [he]; exact h
  · rw [he]; exact List.mem_append_left _ h

theorem ids_modifyIdx (f : GraphNode → GraphNode) (hf : ∀ n, (f n).node_id = n.node_id) :
    ∀ (i : Nat) (l : List GraphNode),
      (modifyIdx f i l).map GraphNode.node_id = l.map GraphNode.node_id := by
  intro i l
  induction l generalizing i with
  | nil => cases i <;> rfl
  | cons n t ih =>
    cases i with
    | zero => simp [modifyIdx, hf]
    | succ j => simp [modifyIdx, ih j]

theorem addLink_isSome_iff (g : Graph) (s t : String) :
    (g.addLink s t).isSome ↔ (s = t ∨ s ∈ g.ids) := by
  unfold Graph.addLink
  by_cases hst : s = t
  · simp [hst]
  · rw [if_neg hst]
    cases hfind : g.findNode s with
    | none =>
      simp only [Option.isSome_none, Bool.false_eq_true, false_iff]
      rintro (h | h)
      · exact hst h
      · have := (findNode_isSome_iff g s).mpr h
        rw [hfind] at this
        exact absurd this (by simp)
    | some n =>
      simp only []
      constructor
      · intro _
        right
        have h1 : (g.findNode s).isSome := by rw [hfind]; rfl
        exact (findNode_isSome_iff g s).mp h1
      · intro _
        split <;> rfl

theorem ids_addLink (g : Graph) (s t : String) (g' : Graph)
    (h : g.addLink s t = some g') : ∀ x ∈ g.ids, x ∈ g'.ids := by
  unfold Graph.addLink at h
  by_cases hst : s = t
  · rw [if_pos hst] at h
    cases h
    intro x hx
    exact hx
  · rw [if_neg hst] at h
    cases hfind : g.findNode s with
    | none => rw [hfind] at h; cases h
    | some n =>
      simp only [hfind] at h
      intro x hx
      by_cases hmem : n.index ∈ (g.addNodePair t).2.in_links
      · rw [if_pos hmem] at h
        cases h
        exact mem_ids_addNode_mono g t x hx
      · rw [if_neg hmem] at h
        cases h
        show x ∈ Graph.ids _
        unfold Graph.ids
        rw [ids_modifyIdx (fun m => { m with out_counts := m.out_counts + 1 }) (fun m => rfl),
          ids_modifyIdx (fun m => { m with in_links := insertLink m.in_links n.index }) (fun m => rfl)]
        exact mem_ids_addNode_mono g t x hx

theorem addLinks_isSome (links : List (String × String)) :
    ∀ g : Graph, (g.addLinks links).isSome := by
  induction links with
  | nil => intro g; rfl
  | cons p rest ih =>
    intro g
    unfold Graph.addLinks
    rw [List.foldlM_cons]
    have h1 : (((g.addNode p.1).addNode p.2).addLink p.1 p.2).isSome := by
      rw [addLink_isSome_iff]
      right
      exact mem_ids_addNode_mono _ p.2 p.1 (mem_ids_addNode_self g p.1)
    obtain ⟨g2, hg2⟩ := Option.isSome_iff_exists.mp h1
    rw [hg2]
    show (Option.bind (some g2) _).isSome
    rw [Option.bind]
    exact ih g2

theorem addNodeWithRefs_aux (node_id : String) (refs : List String) :
    ∀ g : Graph, node_id ∈ g.ids →
      (refs.foldlM (fun g r => Graph.addLink g node_id r) g).isSome := by
  induction refs with
  | nil => intro g _; rfl
  | cons r rest ih =>
    intro g hmem
    rw [List.foldlM_cons]
    have h1 : (g.addLink node_id r).isSome := by
      rw [addLink_isSome_iff]
      right
      exact hmem
    obtain ⟨g2, hg2⟩ := Option.isSome_iff_exists.mp h1
    rw [hg2]
    show (Option.bind (some g2) _).isSome
    rw [Option.bind]
    exact ih g2 (ids_addLink g node_id r g2 hg2 node_id hmem)

theorem addNodeWithRefs_isSome (g : Graph) (node_id : String) (refs : List String) :
    (g.addNodeWithRefs node_id refs).isSome :=
  addNodeWithRefs_aux node_id refs (g.addNode node_id) (mem_ids_addNode_self g node_id)

/-- The node-identity invariant: each node's `index` equals its
position in the node list (true of every graph built through the public
interface; Python guarantees it because the mutated `GraphNode` object
*is* the list entry). -/
def Aligned (g : Graph) : Prop :=
  ∀ (i : Nat) (n : GraphNode), g.nodes.get? i = some n → n.index = i

/-- Positional reading of `modifyIdx`. -/
theorem get?_modifyIdx (f : GraphNode → GraphNode) :
    ∀ (i : Nat) (l : List GraphNode) (j : Nat),
      (modifyIdx f i l).get? j = if j = i then (l.get? j).map f else l.get? j := by
  intro i l
  induction l generalizing i with
  | nil => intro j; cases i <;> simp [modifyIdx]
  | cons a t ih =>
    intro j
    cases i with
    | zero =>
      cases j with
      | zero => simp [modifyIdx]
      | succ jj => simp [modifyIdx]
    | succ ii =>
      cases j with
      | zero => simp [modifyIdx]
      | succ jj =>
        simp only [modifyIdx, List.get?_cons_succ, ih ii jj]
        by_cases h : jj = ii
        · simp [h]
        · simp [h, fun hh => h (Nat.succ_injective hh)]

/-- A successful `find?` pins down a position with no earlier match. -/
theorem find?_position (s : String) :
    ∀ (l : List GraphNode) (n : GraphNode),
      l.find? (fun x => x.node_id == s) = some n →
      ∃ i, l.get? i = some n ∧ ∀ j m, j < i → l.get? j = some m → m.node_id ≠ s := by
  intro l
  induction l with
  | nil => intro n h; cases h
  | cons a t ih =>
    intro n h
    by_cases ha : a.node_id = s
    · rw [List.find?_cons_of_pos t (by simp [ha])] at h
      refine ⟨0, by simpa using h, ?_⟩
      intro j m hj _
      omega
    · rw [List.find?_cons_of_neg t (by simp [ha])] at h
      obtain ⟨i, hi, hpre⟩ := ih n h
      refine ⟨i + 1, by simpa using hi, ?_⟩
      intro j m hj hm
      cases j with
      | zero =>
        have hma : a = m := by simpa using hm
        rw [← hma]
        exact ha
      | succ jj =>
        exact hpre jj m (by omega) (by simpa using hm)

/-- Modifying a position whose node has a different id leaves a
`find?`-by-id untouched, provided the modification preserves ids. -/
theorem find?_modifyIdx_other (f : GraphNode → GraphNode) (s : String)
    (hf : ∀ x, (f x).node_id = x.node_id) :
    ∀ (l : List GraphNode) (i : Nat),
      (∀ m, l.get? i = some m → m.node_id ≠ s) →
      (modifyIdx f i l).find? (fun x => x.node_id == s) =
        l.find? (fun x => x.node_id == s) := by
  intro l
  induction l with
  | nil => intro i _; cases i <;> rfl
  | cons a t ih =>
    intro i hno
    cases i with
    | zero =>
      have ha : a.node_id ≠ s := hno a (by simp)
      show ((f a) :: t).find? _ = _
      rw [List.find?_cons_of_neg t (by simp [hf a, ha]),
        List.find?_cons_of_neg t (by simp [ha])]
    | succ ii =>
      show (a :: modifyIdx f ii t).find? _ = _
      by_cases ha : a.node_id = s
      · rw [List.find?_cons_of_pos _ (by simp [ha]), List.find?_cons_of_pos t (by simp [ha])]
      · rw [List.find?_cons_of_neg _ (by simp [ha]), List.find?_cons_of_neg t (by simp [ha])]
        exact ih ii (fun m hm => hno m (by simpa using hm))

/-- Modifying exactly the first matching position makes `find?` return
the modified node. -/
theorem find?_modifyIdx_found (f : GraphNode → GraphNode) (s : String)
    (hf : ∀ x, (f x).node_id = x.node_id) :
    ∀ (l : List GraphNode) (i : Nat) (n : GraphNode),
      l.get? i = some n → n.node_id = s →
      (∀ j m, j < i → l.get? j = some m → m.node_id ≠ s) →
      (modifyIdx f i l).find? (fun x => x.node_id == s) = some (f n) := by
  intro l
  induction l with
  | nil => intro i n h; cases i <;> cases h
  | cons a t ih =>
    intro i n hi hn hpre
    cases i with
    | zero =>
      have : a = n := by simpa using hi
      subst this
      show ((f a) :: t).find? _ = _
      rw [List.find?_cons_of_pos _ (by simp [hf a, hn])]
    | succ ii =>
      have ha : a.node_id ≠ s := hpre 0 a (by omega) (by simp)
      show (a :: modifyIdx f ii t).find? _ = _
      rw [List.find?_cons_of_neg _ (by simp [ha])]
      exact ih ii n (by simpa using hi) hn
        (fun j m hj hm => hpre (j + 1) m (by omega) (by simpa using hm))

/-- `set.add` always leaves the added element present. -/
theorem mem_insertLink_self (l : List Nat) (i : Nat) : i ∈ insertLink l i := by
  unfold insertLink
  by_cases h : i ∈ l
  · rwa [if_pos h]
  · rw [if_neg h]
    exact List.mem_append_right l (List.mem_singleton.mpr rfl)

/-- Core of the duplicate-link no-op: after the two field mutations of
a successful `add_link`, running the same `add_link` again finds the
same source (index unchanged) and a target whose in-link set now
contains it, so the repeated-connection guard fires and the graph is
returned unchanged. -/
theorem addLink_modified_idem (L : List GraphNode) (s t : String) (sn tn : GraphNode)
    (ps pt : Nat) (hst : s ≠ t)
    (hsn_id : sn.node_id = s) (htn_id : tn.node_id = t)
    (hps : L.get? ps = some sn) (hpt : L.get? pt = some tn)
    (hpre_s : ∀ j m, j < ps → L.get? j = some m → m.node_id ≠ s)
    (hpre_t : ∀ j m, j < pt → L.get? j = some m → m.node_id ≠ t) :
    Graph.addLink ⟨modifyIdx (fun n => { n with out_counts := n.out_counts + 1 }) ps
      (modifyIdx (fun n => { n with in_links := insertLink n.in_links sn.index }) pt L)⟩ s t =
    some ⟨modifyIdx (fun n => { n with out_counts := n.out_counts + 1 }) ps
      (modifyIdx (fun n => { n with in_links := insertLink n.in_links sn.index }) pt L)⟩ := by
  have hne : ps ≠ pt := by
    intro he
    rw [he, hpt] at hps
    have heq : tn = sn := Option.some.inj hps
    apply hst
    rw [← hsn_id, ← heq, htn_id]
  have hfind_s :
      (modifyIdx (fun n => { n with out_counts := n.out_counts + 1 }) ps
        (modifyIdx (fun n => { n with in_links := insertLink n.in_links sn.index }) pt L)).find?
        (fun x => x.node_id == s) =
      some { sn with out_counts := sn.out_counts + 1 } := by
    apply find?_modifyIdx_found
      (fun n => { n with out_counts := n.out_counts + 1 }) s (fun x => rfl)
    · rw [get?_modifyIdx, if_neg hne]
      exact hps
    · exact hsn_id
    · intro j m hj hm
      rw [get?_modifyIdx] at hm
      by_cases hjp : j = pt
      · rw [if_pos hjp] at hm
        cases hLj : L.get? j with
        | none => rw [hLj] at hm; cases hm
        | some m0 =>
          rw [hLj] at hm
          have hmm : m = { m0 with in_links := insertLink m0.in_links sn.index } :=
            (Option.some.inj hm).symm
          rw [hmm]
          exact hpre_s j m0 hj hLj
      · rw [if_neg hjp] at hm
        exact hpre_s j m hj hm
  have hfind_t :
      (modifyIdx (fun n => { n with out_counts := n.out_counts + 1 }) ps
        (modifyIdx (fun n => { n with in_links := insertLink n.in_links sn.index }) pt L)).find?
        (fun x => x.node_id == t) =
      some { tn with in_links := insertLink tn.in_links sn.index } := by
    rw [find?_modifyIdx_other (fun n => { n with out_counts := n.out_counts + 1 }) t
      (fun x => rfl) _ ps ?nops]
    case nops =>
      intro m hm
      rw [get?_modifyIdx, if_neg hne, hps] at hm
      have hmm : m = sn := (Option.some.inj hm).symm
      rw [hmm, hsn_id]
      exact hst
    exact find?_modifyIdx_found
      (fun n => { n with in_links := insertLink n.in_links sn.index }) t (fun x => rfl)
      L pt tn hpt htn_id hpre_t
  unfold Graph.addLink
  rw [if_neg hst]
  rw [show Graph.findNode ⟨modifyIdx (fun n => { n with out_counts := n.out_counts + 1 }) ps
      (modifyIdx (fun n => { n with in_links := insertLink n.in_links sn.index }) pt L)⟩ s =
    some { sn with out_counts := sn.out_counts + 1 } from hfind_s]
  have hpair : Graph.addNodePair ⟨modifyIdx (fun n => { n with out_counts := n.out_counts + 1 }) ps
      (modifyIdx (fun n => { n with in_links := insertLink n.in_links sn.index }) pt L)⟩ t =
      (⟨modifyIdx (fun n => { n with out_counts := n.out_counts + 1 }) ps
        (modifyIdx (fun n => { n with in_links := insertLink n.in_links sn.index }) pt L)⟩,
       { tn with in_links := insertLink tn.in_links sn.index }) := by
    unfold Graph.addNodePair
    rw [show Graph.findNode ⟨modifyIdx (fun n => { n with out_counts := n.out_counts + 1 }) ps
        (modifyIdx (fun n => { n with in_links := insertLink n.in_links sn.index }) pt L)⟩ t =
      some { tn with in_links := insertLink tn.in_links sn.index } from hfind_t]
  simp only [hpair]
  rw [if_pos (show ({ sn with out_counts := sn.out_counts + 1 } : GraphNode).index ∈
      ({ tn with in_links := insertLink tn.in_links sn.index } : GraphNode).in_links from
    mem_insertLink_self tn.in_links sn.index)]

theorem find?_eq_some_id (g : Graph) (s : String) (n : GraphNode)
    (h : g.findNode s = some n) : n.node_id = s := by
  unfold Graph.findNode at h
  have := List.find?_some h
  simpa using this

/-- A repeated `add_link` call is a no-op on every aligned graph. -/
theorem addLink_idem (g g' : Graph) (s t : String) (hal : Aligned g)
    (h : g.addLink s t = some g') : g'.addLink s t = some g' := by
  by_cases hst : s = t
  · have hg : g' = g := by
      unfold Graph.addLink at h
      rw [if_pos hst] at h
      exact (Option.some.inj h).symm
    subst hg
    unfold Graph.addLink
    rw [if_pos hst]
  · unfold Graph.addLink at h
    rw [if_neg hst] at h
    cases hsn : g.findNode s with
    | none => rw [hsn] at h; cases h
    | some sn =>
      simp only [hsn] at h
      have hsn_id : sn.node_id = s := find?_eq_some_id g s sn hsn
      obtain ⟨ps, hps, hpre_s⟩ := find?_position s g.nodes sn hsn
      have hsp : sn.index = ps := hal ps sn hps
      cases hfnt : g.findNode t with
      | some tn =>
        have hpair : g.addNodePair t = (g, tn) := by
          unfold Graph.addNodePair
          rw [hfnt]
        rw [hpair] at h
        have htn_id : tn.node_id = t := find?_eq_some_id g t tn hfnt
        obtain ⟨pt, hpt, hpre_t⟩ := find?_position t g.nodes tn hfnt
        have htp : tn.index = pt := hal pt tn hpt
        by_cases hmem : sn.index ∈ tn.in_links
        · rw [if_pos hmem] at h
          have hg : g' = g := (Option.some.inj h).symm
          subst hg
          unfold Graph.addLink
          rw [if_neg hst, hsn, hpair]
          simp only []
          rw [if_pos hmem]
        · rw [if_neg hmem] at h
          have hg : g' = ⟨modifyIdx (fun n => { n with out_counts := n.out_counts + 1 }) ps
              (modifyIdx (fun n => { n with in_links := insertLink n.in_links sn.index })
                pt g.nodes)⟩ := by
            rw [← hsp, ← htp]
            exact (Option.some.inj h).symm
          subst hg
          exact addLink_modified_idem g.nodes s t sn tn ps pt hst hsn_id htn_id hps hpt
            hpre_s hpre_t
      | none =>
        have hpair : g.addNodePair t = (⟨g.nodes ++ [⟨g.nodes.length, t, [], 0⟩]⟩,
            ⟨g.nodes.length, t, [], 0⟩) := by
          unfold Graph.addNodePair
          rw [hfnt]
        rw [hpair] at h
        rw [if_neg (by simp : ¬ sn.index ∈ (⟨g.nodes.length, t, [], 0⟩ : GraphNode).in_links)] at h
        have hlen : ps < g.nodes.length := by
          by_contra hge
          rw [List.get?_eq_none.mpr (by omega)] at hps
          cases hps
        have hps' : (g.nodes ++ [(⟨g.nodes.length, t, [], 0⟩ : GraphNode)]).get? ps = some sn := by
          rw [List.get?_append hlen]
          exact hps
        have hpt' : (g.nodes ++ [(⟨g.nodes.length, t, [], 0⟩ : GraphNode)]).get? g.nodes.length =
            some (⟨g.nodes.length, t, [], 0⟩ : GraphNode) := by
          rw [List.get?_concat_length]
        have hpre_s' : ∀ j m, j < ps → (g.nodes ++ [(⟨g.nodes.length, t, [], 0⟩ : GraphNode)]).get? j = some m →
            m.node_id ≠ s := by
          intro j m hj hm
          rw [List.get?_append (by omega)] at hm
          exact hpre_s j m hj hm
        have hpre_t' : ∀ j m, j < g.nodes.length →
            (g.nodes ++ [(⟨g.nodes.length, t, [], 0⟩ : GraphNode)]).get? j = some m → m.node_id ≠ t := by
          intro j m hj hm
          rw [List.get?_append (by omega)] at hm
          have hmem : m ∈ g.nodes := List.get?_mem hm
          have := List.find?_eq_none.mp hfnt m hmem
          simpa using this
        have hg : g' = ⟨modifyIdx (fun n => { n with out_counts := n.out_counts + 1 }) ps
            (modifyIdx (fun n => { n with in_links := insertLink n.in_links sn.index })
              g.nodes.length (g.nodes ++ [(⟨g.nodes.length, t, [], 0⟩ : GraphNode)]))⟩ := by
          rw [← hsp]
          exact (Option.some.inj h).symm
        subst hg
        exact addLink_modified_idem (g.nodes ++ [(⟨g.nodes.length, t, [], 0⟩ : GraphNode)]) s t sn
          (⟨g.nodes.length, t, [], 0⟩ : GraphNode) ps g.nodes.length hst hsn_id rfl hps' hpt'
          hpre_s' hpre_t'

theorem aligned_empty : Aligned Graph.empty := by
  intro i n h
  cases i <;> cases h

theorem aligned_append_fresh (l : List GraphNode) (n0 : GraphNode)
    (hn : n0.index = l.length) (h : ∀ i n, l.get? i = some n → n.index = i) :
    ∀ i n, (l ++ [n0]).get? i = some n → n.index = i := by
  intro i n hi
  by_cases hlt : i < l.length
  · rw [List.get?_append hlt] at hi
    exact h i n hi
  · by_cases heq : i = l.length
    · subst heq
      rw [List.get?_concat_length] at hi
      rw [← Option.some.inj hi]
      exact hn
    · rw [List.get?_eq_none.mpr (by simp; omega)] at hi
      cases hi

theorem aligned_modifyIdx (f : GraphNode → GraphNode) (hf : ∀ n, (f n).index = n.index)
    (j : Nat) (l : List GraphNode) (h : ∀ i n, l.get? i = some n → n.index = i) :
    ∀ i n, (modifyIdx f j l).get? i = some n → n.index = i := by
  intro i n hi
  rw [get?_modifyIdx] at hi
  by_cases hij : i = j
  · rw [if_pos hij] at hi
    cases hl : l.get? i with
    | none => rw [hl] at hi; cases hi
    | some m =>
      rw [hl] at hi
      rw [← Option.some.inj hi, hf m]
      exact h i m hl
  · rw [if_neg hij] at hi
    exact h i n hi

theorem aligned_addNode (g : Graph) (s : String) (h : Aligned g) : Aligned (g.addNode s) := by
  unfold Graph.addNode Graph.addNodePair
  cases hf : g.findNode s with
  | some n => exact h
  | none => exact aligned_append_fresh g.nodes ⟨g.nodes.length, s, [], 0⟩ rfl h

theorem aligned_addLink (g : Graph) (s t : String) (g' : Graph) (hal : Aligned g)
    (h : g.addLink s t = some g') : Aligned g' := by
  unfold Graph.addLink at h
  by_cases hst : s = t
  · rw [if_pos hst] at h
    rw [← Option.some.inj h]
    exact hal
  · rw [if_neg hst] at h
    cases hsn : g.findNode s with
    | none => rw [hsn] at h; cases h
    | some sn =>
      simp only [hsn] at h
      have hal1 : Aligned (g.addNodePair t).1 := by
        unfold Graph.addNodePair
        cases hf : g.findNode t with
        | some n => exact hal
        | none => exact aligned_append_fresh g.nodes ⟨g.nodes.length, t, [], 0⟩ rfl hal
      by_cases hmem : sn.index ∈ (g.addNodePair t).2.in_links
      · rw [if_pos hmem] at h
        rw [← Option.some.inj h]
        exact hal1
      · rw [if_neg hmem] at h
        rw [← Option.some.inj h]
        exact aligned_modifyIdx (fun n => { n with out_counts := n.out_counts + 1 })
          (fun n => rfl) sn.index _
          (aligned_modifyIdx (fun n => { n with in_links := insertLink n.in_links sn.index })
            (fun n => rfl) (g.addNodePair t).2.index _ hal1)

/-- Alignment follows from its bounded (decidable) form. -/
theorem aligned_of_lt (g : Graph)
    (h : ∀ i, i < g.nodes.length → ∀ n, g.nodes.get? i = some n → n.index = i) :
    Aligned g := by
  intro i n hi
  by_cases hlt : i < g.nodes.length
  · exact h i hlt n hi
  · rw [List.get?_eq_none.mpr (by omega)] at hi
    cases hi

/-- C7, counterexample: `add_link` with a source id that was never added
(and that differs from the target) raises `KeyError` —
`self._node_map[source_id]` — so graph construction does reject this
input instead of degrading to a no-op.  (`add_links` and
`add_node_with_refs` insert the endpoints first and never hit this.) -/
theorem C7_addLink_unknown_source_raises :
    Graph.addLink Graph.empty "A" "B" = none := by rfl

/-- C7, amended: construction never raises except for a bare `add_link`
whose source id was never added and differs from the target id:
`add_node` is total by construction, a self-link is a no-op even when
the ids are unknown, `add_link` succeeds exactly when the link is a
self-link or the source id is present, `add_links` /
`add_node_with_refs` always complete normally (they create the needed
nodes before linking), and duplicate links degrade to no-ops: on every
aligned graph — the alignment invariant holds for the empty graph and is
preserved by every operation — repeating a successful `add_link` returns
the same graph unchanged. -/
theorem C7_construction_total_except_unknown_source :
    (∀ (g : Graph) (s : String), g.addLink s s = some g) ∧
      (∀ (g : Graph) (s t : String), (g.addLink s t).isSome ↔ (s = t ∨ s ∈ g.ids)) ∧
      (∀ (g : Graph) (links : List (String × String)), (g.addLinks links).isSome) ∧
      (∀ (g : Graph) (node_id : String) (refs : List String),
        (g.addNodeWithRefs node_id refs).isSome) ∧
      (Aligned Graph.empty ∧
        (∀ (g : Graph) (s : String), Aligned g → Aligned (g.addNode s)) ∧
        (∀ (g : Graph) (s t : String) (g' : Graph), Aligned g → g.addLink s t = some g' →
          Aligned g')) ∧
      (∀ (g : Graph) (s t : String) (g' : Graph), Aligned g → g.addLink s t = some g' →
        g'.addLink s t = some g') := by
  refine ⟨?_, addLink_isSome_iff, ?_, ?_, ⟨aligned_empty, aligned_addNode, aligned_addLink⟩, ?_⟩
  · intro g s
    unfold Graph.addLink
    rw [if_pos rfl]
  · intro g links
    exact addLinks_isSome links g
  · exact addNodeWithRefs_isSome
  · intro g s t g' hal h
    exact addLink_idem g g' s t hal h

/-- Witness for `C7_construction_total_except_unknown_source`: on the
two-node cycle (aligned), repeating the already-present link A→B is a
no-op. -/
theorem C7_construction_total_except_unknown_source_witness :
    Graph.addLink twoCycleGraph "A" "B" = some twoCycleGraph :=
  C7_construction_total_except_unknown_source.2.2.2.2.2 twoCycleGraph "A" "B" twoCycleGraph
    (aligned_of_lt twoCycleGraph (by decide)) (by decide)

/-! ## Corpus index (`tfidf_search.py`, class `TfIdfTable`)

Python dicts preserve insertion order; they are modelled as
insertion-ordered association lists with unique keys. -/

/-- A dict from term to number. -/
abbrev TermMap := List (String × ℚ)

/-- Dict lookup `m[t]` (also used for the `t in m` test). -/
def lookupTM (m : TermMap) (t : String) : Option ℚ :=
  (m.find? (fun p => p.1 == t)).map Prod.snd

/-- `m[t] = m.get(t, 0.0) + inc`: dict write keeping the key\'s
insertion position, appending a fresh key at the end. -/
def bumpTM (m : TermMap) (t : String) (inc : ℚ) : TermMap :=
  match m with
  | [] => [(t, inc)]
  | (s, v) :: rest => if s = t then (s, v + inc) :: rest else (s, v) :: bumpTM rest t inc

/-- The term-count loops of `append_document` / `search`. -/
def countTerms (terms : List String) : TermMap :=
  terms.foldl (fun m t => bumpTM m t 1) []

/-- The normalisation loops: divide every count by the token count. -/
def normalizeTM (m : TermMap) (length : ℚ) : TermMap :=
  m.map (fun p => (p.1, p.2 / length))

/-- `TfIdfTable.__init__` state: the ordered document list (name and
normalised term map) and the overall term-occurrence counts. -/
structure TfIdfTable where
  documents : List (String × TermMap)
  overall_term_counts : TermMap
deriving DecidableEq, Repr

/-- A fresh table. -/
def TfIdfTable.emptyTable : TfIdfTable := ⟨[], []⟩

/-- `TfIdfTable.append_document`.  For an empty term list the count map
is empty, so the normalisation loop body never runs (no division by the
zero length, matching Python). -/
def TfIdfTable.appendDocument (tbl : TfIdfTable) (doc_name : String)
    (list_of_terms : List String) : TfIdfTable :=
  let doc_term_counts := countTerms list_of_terms
  let doc_term_normals := normalizeTM doc_term_counts (list_of_terms.length : ℚ)
  ⟨tbl.documents ++ [(doc_name, doc_term_normals)],
    list_of_terms.foldl (fun m t => bumpTM m t 1) tbl.overall_term_counts⟩

/-- Python\'s ASCII `str.lower` on a string, character by character
(`Char.toLower` lowers exactly the ASCII range, like CPython does for
ASCII input). -/
def pyLower (s : String) : String := ⟨s.data.map Char.toLower⟩

/-- `[x.lower() for x in search.split()]`: split on whitespace runs,
drop empty pieces, lower-case each piece. -/
def splitQuery (search : String) : List String :=
  ((search.split Char.isWhitespace).filter (fun s => s != "")).map pyLower

/-- The normalised query-term frequencies of `TfIdfTable.search`. -/
def searchTermNormals (search : String) : TermMap :=
  let search_terms := splitQuery search
  normalizeTM (countTerms search_terms) (search_terms.length : ℚ)

/-- The per-document score loop of `TfIdfTable.search`.  The code looks
`overall_term_counts[term]` up only for terms present in the document;
in every table reachable through `append_document` such terms are
present in the overall map (lemma `buildTable_doc_keys` below), so the
`getD 0` default never fires there (in Python a missing key would raise
`KeyError`). -/
def docScore (overall search_term_normals doc_term_counts : TermMap) : ℚ :=
  search_term_normals.foldl (fun score p =>
    match lookupTM doc_term_counts p.1 with
    | some doc_term_normal => score + (p.2 + doc_term_normal) / ((lookupTM overall p.1).getD 0)
    | none => score) 0

/-- `TfIdfTable.search` (the default threshold is `0.0`; it is passed
explicitly here). -/
def TfIdfTable.search (tbl : TfIdfTable) (search : String) (threshold : ℚ) :
    List (String × ℚ) :=
  tbl.documents.foldl (fun term_scores doc =>
    let score := docScore tbl.overall_term_counts (searchTermNormals search) doc.2
    if score > threshold then term_scores ++ [(doc.1, score)] else term_scores) []

/-- A table built by appending the given corpus in order. -/
def buildTable (corpus : List (String × List String)) : TfIdfTable :=
  corpus.foldl (fun tbl d => tbl.appendDocument d.1 d.2) TfIdfTable.emptyTable

/-- Does the document share at least one (lower-cased) query term? -/
def sharesTerm (query_terms : List String) (doc_term_counts : TermMap) : Bool :=
  query_terms.any (fun t => (lookupTM doc_term_counts t).isSome)

/-- The claim\'s score formula (spec §4.1): the sum over shared terms of
`(queryTermNormalized + docTermNormalized) / globalOccurrenceCount(term)`,
one summand per distinct query term present in the document. -/
def claimScore (overall search_term_normals doc_term_counts : TermMap) : ℚ :=
  ((search_term_normals.filter (fun p => (lookupTM doc_term_counts p.1).isSome)).map
    (fun p => (p.2 + (lookupTM doc_term_counts p.1).getD 0) /
      ((lookupTM overall p.1).getD 0))).sum

/-! ## Association-list (dict) lemmas for the corpus index -/

theorem lookupTM_nil (t : String) : lookupTM [] t = none := rfl

theorem lookupTM_cons_self (k : String) (v : ℚ) (rest : TermMap) :
    lookupTM ((k, v) :: rest) k = some v := by
  unfold lookupTM
  rw [List.find?_cons_of_pos rest (by simp)]
  rfl

theorem lookupTM_cons_ne (k s : String) (v : ℚ) (rest : TermMap) (h : s ≠ k) :
    lookupTM ((k, v) :: rest) s = lookupTM rest s := by
  unfold lookupTM
  rw [List.find?_cons_of_neg rest (by simp [Ne.symm h])]

theorem lookupTM_bumpTM (m : TermMap) (t s : String) (inc : ℚ) :
    lookupTM (bumpTM m t inc) s =
      if s = t then some ((lookupTM m t).getD 0 + inc) else lookupTM m s := by
  induction m with
  | nil =>
    by_cases h : s = t
    · subst h
      rw [show bumpTM [] s inc = [(s, inc)] from rfl, lookupTM_cons_self, if_pos rfl]
      simp [lookupTM_nil]
    · rw [show bumpTM [] t inc = [(t, inc)] from rfl, lookupTM_cons_ne t s inc [] h, if_neg h]
  | cons p rest ih =>
    obtain ⟨k, v⟩ := p
    by_cases hk : k = t
    · subst hk
      rw [show bumpTM ((k, v) :: rest) k inc = (k, v + inc) :: rest from by rw [bumpTM, if_pos rfl]]
      by_cases hs : s = k
      · subst hs
        rw [lookupTM_cons_self, lookupTM_cons_self, if_pos rfl]
        rfl
      · rw [lookupTM_cons_ne k s (v + inc) rest hs, lookupTM_cons_ne k s v rest hs, if_neg hs]
    · rw [show bumpTM ((k, v) :: rest) t inc = (k, v) :: bumpTM rest t inc from by
        rw [bumpTM, if_neg hk]]
      by_cases hs : s = k
      · subst hs
        rw [lookupTM_cons_self, if_neg (fun h => hk h), lookupTM_cons_self]
      · rw [lookupTM_cons_ne k s v (bumpTM rest t inc) hs, ih,
          lookupTM_cons_ne k t v rest (Ne.symm hk), lookupTM_cons_ne k s v rest hs]

theorem lookupTM_countFold_isSome (l : List String) :
    ∀ (m : TermMap) (t : String),
      (lookupTM (l.foldl (fun m t => bumpTM m t 1) m) t).isSome ↔
        t ∈ l ∨ (lookupTM m t).isSome := by
  induction l with
  | nil => intro m t; simp
  | cons a rest ih =>
    intro m t
    rw [List.foldl_cons, ih (bumpTM m a 1) t, lookupTM_bumpTM]
    by_cases h : t = a
    · subst h
      simp
    · simp [h, Ne.symm h]

theorem lookupTM_countTerms_isSome (l : List String) (t : String) :
    (lookupTM (countTerms l) t).isSome ↔ t ∈ l := by
  unfold countTerms
  rw [lookupTM_countFold_isSome]
  simp [lookupTM_nil]

theorem isSome_map_snd (x : Option (String × ℚ)) :
    (Option.map Prod.snd x).isSome = x.isSome := by
  cases x <;> rfl

theorem lookupTM_isSome_of_mem (m : TermMap) (p : String × ℚ) (h : p ∈ m) :
    (lookupTM m p.1).isSome := by
  unfold lookupTM
  rw [isSome_map_snd, List.find?_isSome]
  exact ⟨p, h, by simp⟩

theorem lookupTM_some_mem (m : TermMap) (t : String) (v : ℚ)
    (h : lookupTM m t = some v) : (t, v) ∈ m := by
  unfold lookupTM at h
  cases hf : m.find? (fun p => p.1 == t) with
  | none => rw [hf] at h; cases h
  | some q =>
    rw [hf] at h
    have hq : q ∈ m := List.mem_of_find?_eq_some hf
    have hkey : q.1 = t := by
      have := List.find?_some hf
      simpa using this
    have hval : q.2 = v := by simpa using h
    have : q = (t, v) := by
      obtain ⟨q1, q2⟩ := q
      simp only at hkey hval
      rw [hkey, hval]
    rw [this] at hq
    exact hq

theorem bumpTM_one_le (m : TermMap) (a : String) (hm : ∀ p ∈ m, (1:ℚ) ≤ p.2) :
    ∀ p ∈ bumpTM m a 1, (1:ℚ) ≤ p.2 := by
  induction m with
  | nil =>
    intro p hp
    simp only [bumpTM, List.mem_singleton] at hp
    simp [hp]
  | cons q mrest ihm =>
    obtain ⟨k, v⟩ := q
    intro p hp
    by_cases hk : k = a
    · rw [show bumpTM ((k, v) :: mrest) a 1 = (k, v + 1) :: mrest from by
        rw [bumpTM, if_pos hk]] at hp
      rcases List.mem_cons.mp hp with h1 | h1
      · have := hm (k, v) (List.mem_cons_self _ _)
        simp only at this
        rw [h1]
        show (1:ℚ) ≤ v + 1
        linarith
      · exact hm p (List.mem_cons_of_mem _ h1)
    · rw [show bumpTM ((k, v) :: mrest) a 1 = (k, v) :: bumpTM mrest a 1 from by
        rw [bumpTM, if_neg hk]] at hp
      rcases List.mem_cons.mp hp with h1 | h1
      · rw [h1]
        exact hm (k, v) (List.mem_cons_self _ _)
      · exact ihm (fun q hq => hm q (List.mem_cons_of_mem _ hq)) p h1

theorem countFold_one_le (l : List String) :
    ∀ (m : TermMap), (∀ p ∈ m, (1:ℚ) ≤ p.2) →
      ∀ p ∈ l.foldl (fun m t => bumpTM m t 1) m, (1:ℚ) ≤ p.2 := by
  induction l with
  | nil => intro m hm; exact hm
  | cons a rest ih =>
    intro m hm
    exact ih (bumpTM m a 1) (bumpTM_one_le m a hm)

theorem countTerms_one_le (l : List String) :
    ∀ p ∈ countTerms l, (1:ℚ) ≤ p.2 :=
  countFold_one_le l [] (by intro p hp; cases hp)

theorem lookupTM_normalizeTM (m : TermMap) (len : ℚ) (t : String) :
    lookupTM (normalizeTM m len) t = (lookupTM m t).map (fun v => v / len) := by
  induction m with
  | nil => rfl
  | cons p rest ih =>
    obtain ⟨k, v⟩ := p
    by_cases h : t = k
    · subst h
      rw [show normalizeTM ((t, v) :: rest) len = (t, v / len) :: normalizeTM rest len from rfl,
        lookupTM_cons_self, lookupTM_cons_self]
      rfl
    · rw [show normalizeTM ((k, v) :: rest) len = (k, v / len) :: normalizeTM rest len from rfl,
        lookupTM_cons_ne k t (v / len) _ h, lookupTM_cons_ne k t v rest h, ih]

theorem docScore_aux (overall docm : TermMap) :
    ∀ (stn : TermMap) (acc : ℚ),
      stn.foldl (fun score p =>
        match lookupTM docm p.1 with
        | some doc_term_normal => score + (p.2 + doc_term_normal) / ((lookupTM overall p.1).getD 0)
        | none => score) acc =
      acc + claimScore overall stn docm := by
  intro stn
  induction stn with
  | nil => intro acc; simp [claimScore]
  | cons p rest ih =>
    intro acc
    rw [List.foldl_cons]
    cases hl : lookupTM docm p.1 with
    | none =>
      rw [ih acc]
      unfold claimScore
      rw [List.filter_cons_of_neg (by simp [hl])]
    | some dn =>
      rw [ih]
      unfold claimScore
      rw [List.filter_cons_of_pos (by simp [hl])]
      simp only [List.map_cons, List.sum_cons, hl]
      ring_nf
      rw [Option.getD_some]
      ring

theorem docScore_eq_claimScore (overall stn docm : TermMap) :
    docScore overall stn docm = claimScore overall stn docm := by
  unfold docScore
  rw [docScore_aux overall docm stn 0, zero_add]

/-- Invariant of every table reachable through `append_document`. -/
def TableInv (tbl : TfIdfTable) : Prop :=
  (∀ p ∈ tbl.overall_term_counts, (1:ℚ) ≤ p.2) ∧
  (∀ d ∈ tbl.documents, (∀ p ∈ d.2, (0:ℚ) < p.2) ∧
    (∀ t : String, (lookupTM d.2 t).isSome → (lookupTM tbl.overall_term_counts t).isSome))

theorem normals_pos (l : List String) :
    ∀ p ∈ normalizeTM (countTerms l) (l.length : ℚ), (0:ℚ) < p.2 := by
  intro p hp
  obtain ⟨q, hq, hpq⟩ := List.mem_map.mp hp
  have hq1 : (1:ℚ) ≤ q.2 := countTerms_one_le l q hq
  have hlne : l ≠ [] := by
    intro hnil
    rw [hnil] at hq
    cases hq
  have hlen : (0:ℚ) < (l.length : ℚ) := by
    have : 0 < l.length := List.length_pos.mpr hlne
    exact_mod_cast this
  rw [← hpq]
  show 0 < q.2 / (l.length : ℚ)
  exact div_pos (lt_of_lt_of_le one_pos hq1) hlen

theorem normals_keys (l : List String) (t : String) :
    (lookupTM (normalizeTM (countTerms l) (l.length : ℚ)) t).isSome ↔ t ∈ l := by
  rw [lookupTM_normalizeTM,
    show ∀ (x : Option ℚ), (Option.map (fun v => v / (l.length : ℚ)) x).isSome = x.isSome from
      fun x => by cases x <;> rfl]
  exact lookupTM_countTerms_isSome l t

theorem tableInv_append (tbl : TfIdfTable) (name : String) (terms : List String)
    (h : TableInv tbl) : TableInv (tbl.appendDocument name terms) := by
  obtain ⟨hov, hdocs⟩ := h
  constructor
  · exact countFold_one_le terms tbl.overall_term_counts hov
  · intro d hd
    rw [TfIdfTable.appendDocument] at hd
    simp only [List.mem_append, List.mem_singleton] at hd
    rcases hd with hd | hd
    · obtain ⟨hpos, hkeys⟩ := hdocs d hd
      refine ⟨hpos, ?_⟩
      intro t ht
      rw [show (tbl.appendDocument name terms).overall_term_counts =
        terms.foldl (fun m t => bumpTM m t 1) tbl.overall_term_counts from rfl]
      rw [lookupTM_countFold_isSome]
      right
      exact hkeys t ht
    · subst hd
      constructor
      · exact normals_pos terms
      · intro t ht
        show (lookupTM (terms.foldl (fun m t => bumpTM m t 1) tbl.overall_term_counts) t).isSome
        rw [lookupTM_countFold_isSome]
        left
        exact (normals_keys terms t).mp ht

theorem buildTable_inv (corpus : List (String × List String)) :
    TableInv (buildTable corpus) := by
  have haux : ∀ (cs : List (String × List String)) (tbl : TfIdfTable), TableInv tbl →
      TableInv (cs.foldl (fun tbl d => tbl.appendDocument d.1 d.2) tbl) := by
    intro cs
    induction cs with
    | nil => intro tbl h; exact h
    | cons c rest ih =>
      intro tbl h
      exact ih (tbl.appendDocument c.1 c.2) (tableInv_append tbl c.1 c.2 h)
  refine haux corpus TfIdfTable.emptyTable ?_
  constructor
  · intro p hp; cases hp
  · intro d hd; cases hd

theorem claimScore_nonneg_and_pos_iff (overall stn docm : TermMap) (qs : List String)
    (hstn_pos : ∀ p ∈ stn, (0:ℚ) < p.2)
    (hstn_keys : ∀ t : String, (lookupTM stn t).isSome ↔ t ∈ qs)
    (hdoc_pos : ∀ p ∈ docm, (0:ℚ) < p.2)
    (hdoc_overall : ∀ t : String, (lookupTM docm t).isSome → (lookupTM overall t).isSome)
    (hoverall_one : ∀ p ∈ overall, (1:ℚ) ≤ p.2) :
    (0 ≤ claimScore overall stn docm) ∧
      (0 < claimScore overall stn docm ↔ sharesTerm qs docm = true) := by
  have hpos : ∀ x ∈ (stn.filter (fun p => (lookupTM docm p.1).isSome)).map
      (fun p => (p.2 + (lookupTM docm p.1).getD 0) / ((lookupTM overall p.1).getD 0)), 0 < x := by
    intro x hx
    obtain ⟨p, hpmem, hpx⟩ := List.mem_map.mp hx
    have hpstn : p ∈ stn := List.mem_of_mem_filter hpmem
    have hiss : (lookupTM docm p.1).isSome := by
      have := List.of_mem_filter hpmem
      simpa using this
    obtain ⟨dn, hdn⟩ := Option.isSome_iff_exists.mp hiss
    have hdnpos : 0 < dn := hdoc_pos (p.1, dn) (lookupTM_some_mem docm p.1 dn hdn)
    have hovs : (lookupTM overall p.1).isSome := hdoc_overall p.1 hiss
    obtain ⟨ov, hov⟩ := Option.isSome_iff_exists.mp hovs
    have hovpos : (0:ℚ) < ov :=
      lt_of_lt_of_le one_pos (hoverall_one (p.1, ov) (lookupTM_some_mem overall p.1 ov hov))
    rw [← hpx, hdn, hov]
    simp only [Option.getD_some]
    exact div_pos (add_pos (hstn_pos p hpstn) hdnpos) hovpos
  constructor
  · exact List.sum_nonneg (fun x hx => le_of_lt (hpos x hx))
  · constructor
    · intro hlt
      by_contra hns
      have hnone : ∀ t ∈ qs, (lookupTM docm t).isSome = false := by
        intro t ht
        by_contra hsome
        apply hns
        unfold sharesTerm
        rw [List.any_eq_true]
        exact ⟨t, ht, by rwa [Bool.not_eq_false] at hsome⟩
      have hfilter : stn.filter (fun p => (lookupTM docm p.1).isSome) = [] := by
        rw [List.filter_eq_nil_iff]
        intro p hp
        have hkey : p.1 ∈ qs := (hstn_keys p.1).mp (lookupTM_isSome_of_mem stn p hp)
        simp [hnone p.1 hkey]
      unfold claimScore at hlt
      rw [hfilter] at hlt
      simp at hlt
    · intro hshares
      unfold sharesTerm at hshares
      rw [List.any_eq_true] at hshares
      obtain ⟨t, htqs, hts⟩ := hshares
      have htstn : (lookupTM stn t).isSome := (hstn_keys t).mpr htqs
      obtain ⟨v, hv⟩ := Option.isSome_iff_exists.mp htstn
      have hmem : (t, v) ∈ stn := lookupTM_some_mem stn t v hv
      have hfmem : (t, v) ∈ stn.filter (fun p => (lookupTM docm p.1).isSome) := by
        rw [List.mem_filter]
        exact ⟨hmem, by simpa using hts⟩
      apply List.sum_pos _ hpos
      intro hmapnil
      rw [List.map_eq_nil_iff] at hmapnil
      rw [hmapnil] at hfmem
      cases hfmem
  
theorem foldl_if_append (docs : List (String × TermMap)) (f : String × TermMap → ℚ) (thr : ℚ) :
    ∀ acc : List (String × ℚ),
      docs.foldl (fun ts doc => if f doc > thr then ts ++ [(doc.1, f doc)] else ts) acc =
        acc ++ docs.filterMap (fun doc => if f doc > thr then some (doc.1, f doc) else none) := by
  induction docs with
  | nil => intro acc; simp
  | cons d rest ih =>
    intro acc
    rw [List.foldl_cons, List.filterMap_cons]
    by_cases h : f d > thr
    · rw [if_pos h, if_pos h, ih]
      simp
    · rw [if_neg h, if_neg h, ih]

theorem filterMap_congr_mem {α β : Type} (l : List α) (f g : α → Option β)
    (h : ∀ x ∈ l, f x = g x) : l.filterMap f = l.filterMap g := by
  induction l with
  | nil => rfl
  | cons a rest ih =>
    rw [List.filterMap_cons, List.filterMap_cons, h a (List.mem_cons_self a rest),
      ih (fun x hx => h x (List.mem_cons_of_mem a hx))]

theorem search_characterization (corpus : List (String × List String)) (q : String) :
    (buildTable corpus).search q 0 =
      (buildTable corpus).documents.filterMap (fun doc =>
        if sharesTerm (splitQuery q) doc.2 then
          some (doc.1, claimScore (buildTable corpus).overall_term_counts
            (searchTermNormals q) doc.2)
        else none) := by
  obtain ⟨hov, hdocs⟩ := buildTable_inv corpus
  show (buildTable corpus).documents.foldl _ [] = _
  rw [show (buildTable corpus).documents.foldl (fun term_scores doc =>
      let score := docScore (buildTable corpus).overall_term_counts (searchTermNormals q) doc.2
      if score > 0 then term_scores ++ [(doc.1, score)] else term_scores) [] =
    (buildTable corpus).documents.foldl (fun term_scores doc =>
      if (fun doc => docScore (buildTable corpus).overall_term_counts
          (searchTermNormals q) doc.2) doc > 0 then
        term_scores ++ [(doc.1, (fun doc => docScore (buildTable corpus).overall_term_counts
          (searchTermNormals q) doc.2) doc)]
      else term_scores) [] from rfl]
  rw [foldl_if_append (buildTable corpus).documents _ 0 []]
  rw [List.nil_append]
  apply filterMap_congr_mem
  intro doc hdoc
  obtain ⟨hdpos, hdkeys⟩ := hdocs doc hdoc
  have hiff := (claimScore_nonneg_and_pos_iff (buildTable corpus).overall_term_counts
    (searchTermNormals q) doc.2 (splitQuery q)
    (normals_pos (splitQuery q)) (normals_keys (splitQuery q)) hdpos hdkeys hov).2
  simp only [docScore_eq_claimScore]
  exact if_congr hiff rfl rfl

/-- Does the string contain an (ASCII) upper-case letter? -/
def containsUpper (s : String) : Bool := s.data.any Char.isUpper

theorem toLower_isUpper_false (c : Char) : (Char.toLower c).isUpper = false := by
  simp only [Char.toLower]
  by_cases h : c.toNat ≥ 65 ∧ c.toNat ≤ 90
  · rw [if_pos h]
    have hvalid : (c.toNat + 32).isValidChar := Or.inl (by omega)
    have hv : (Char.ofNat (c.toNat + 32)).toNat = c.toNat + 32 := by
      rw [Char.ofNat, dif_pos hvalid]
      rfl
    simp only [Char.isUpper]
    apply Bool.and_eq_false_iff.mpr
    right
    apply decide_eq_false
    intro hle
    have h2 : (Char.ofNat (c.toNat + 32)).val.toNat ≤ (90 : UInt32).toNat := hle
    have h90 : (90 : UInt32).toNat = 90 := rfl
    have hcv : (Char.ofNat (c.toNat + 32)).val.toNat = (Char.ofNat (c.toNat + 32)).toNat := rfl
    rw [h90, hcv, hv] at h2
    omega
  · rw [if_neg h]
    simp only [Char.isUpper]
    by_cases h65 : c.val ≥ 65
    · apply Bool.and_eq_false_iff.mpr
      right
      apply decide_eq_false
      intro hle
      apply h
      have ha : c.toNat ≥ (65:UInt32).toNat := h65
      have hb : c.toNat ≤ (90:UInt32).toNat := hle
      exact ⟨ha, hb⟩
    · apply Bool.and_eq_false_iff.mpr
      left
      exact decide_eq_false h65

theorem pyLower_no_upper (s : String) : containsUpper (pyLower s) = false := by
  unfold containsUpper pyLower
  rw [List.any_map]
  rw [List.any_eq_false]
  intro c _
  show ¬(Char.isUpper (Char.toLower c)) = true
  rw [toLower_isUpper_false c]
  exact Bool.false_ne_true

theorem splitQuery_all_lower (q s : String) (h : s ∈ splitQuery q) :
    containsUpper s = false := by
  unfold splitQuery at h
  obtain ⟨x, _, hx⟩ := List.mem_map.mp h
  rw [← hx]
  exact pyLower_no_upper x

theorem upper_notin_query (q t : String) (h : containsUpper t = true) :
    t ∉ splitQuery q := by
  intro hmem
  rw [splitQuery_all_lower q t hmem] at h
  cases h

theorem searchTermNormals_key_mem (q : String) (p : String × ℚ)
    (h : p ∈ searchTermNormals q) : p.1 ∈ splitQuery q := by
  unfold searchTermNormals normalizeTM at h
  obtain ⟨p', hp', hpp⟩ := List.mem_map.mp h
  have : (lookupTM (countTerms (splitQuery q)) p'.1).isSome :=
    lookupTM_isSome_of_mem _ p' hp'
  rw [lookupTM_countTerms_isSome] at this
  rw [← hpp]
  exact this

theorem lookupTM_filter_ne (m : TermMap) (t s : String) (h : s ≠ t) :
    lookupTM (m.filter (fun p => p.1 != t)) s = lookupTM m s := by
  induction m with
  | nil => rfl
  | cons p rest ih =>
    obtain ⟨k, v⟩ := p
    by_cases hk : k = t
    · subst hk
      rw [List.filter_cons_of_neg (by simp)]
      rw [lookupTM_cons_ne k s v rest h]
      exact ih
    · rw [List.filter_cons_of_pos (by simpa using hk)]
      by_cases hs : s = k
      · subst hs
        rw [lookupTM_cons_self, lookupTM_cons_self]
      · rw [lookupTM_cons_ne k s v _ hs, lookupTM_cons_ne k s v rest hs]
        exact ih

theorem foldl_congr_mem {α β : Type} (l : List β) (f g : α → β → α) (a : α)
    (h : ∀ (acc : α), ∀ x ∈ l, f acc x = g acc x) : l.foldl f a = l.foldl g a := by
  induction l generalizing a with
  | nil => rfl
  | cons x rest ih =>
    rw [List.foldl_cons, List.foldl_cons, h a x (List.mem_cons_self x rest)]
    exact ih _ (fun acc y hy => h acc y (List.mem_cons_of_mem x hy))

theorem docScore_filter_upper (q : String) (overall docm : TermMap) (t : String)
    (h : containsUpper t = true) :
    docScore overall (searchTermNormals q) (docm.filter (fun p => p.1 != t)) =
      docScore overall (searchTermNormals q) docm := by
  unfold docScore
  apply foldl_congr_mem
  intro acc p hp
  have hkey : p.1 ∈ splitQuery q := searchTermNormals_key_mem q p hp
  have hne : p.1 ≠ t := by
    intro he
    exact upper_notin_query q t h (he ▸ hkey)
  rw [lookupTM_filter_ne docm t p.1 hne]

theorem appendDocument_getLast (tbl : TfIdfTable) (name : String) (terms : List String) :
    (tbl.appendDocument name terms).documents.getLast? =
      some (name, normalizeTM (countTerms terms) (terms.length : ℚ)) := by
  show (tbl.documents ++ [(name, normalizeTM (countTerms terms) (terms.length : ℚ))]).getLast? = _
  rw [List.getLast?_concat]

/-- C4: confirmed.  For every corpus built by repeated
`append_document` and every query, `TfIdfTable.search` (threshold 0)
returns — in document-insertion order — exactly the documents sharing at
least one (lower-cased) query term, each scored as the sum over shared
terms of `(queryTermNormalized + docTermNormalized) /
globalOccurrenceCount(term)`; and on the corpus
`{"a.txt": "cat dog", "b.txt": "dog dog"}` with query `"dog"` the result
is `[("a.txt", 1/2), ("b.txt", 2/3)]`: both documents score above 0 and
`b.txt` scores strictly higher. -/
theorem C4_search_shared_terms_and_scenario :
    (∀ (corpus : List (String × List String)) (q : String),
      (buildTable corpus).search q 0 =
        (buildTable corpus).documents.filterMap (fun doc =>
          if sharesTerm (splitQuery q) doc.2 then
            some (doc.1, claimScore (buildTable corpus).overall_term_counts
              (searchTermNormals q) doc.2)
          else none)) ∧
    ((buildTable [("a.txt", ["cat", "dog"]), ("b.txt", ["dog", "dog"])]).search "dog" 0 =
        [("a.txt", 1/2), ("b.txt", 2/3)] ∧ (0:ℚ) < 1/2 ∧ ((1:ℚ)/2) < 2/3) := by
  refine ⟨search_characterization, ?_, ?_, ?_⟩
  · with_unfolding_all rfl
  · exact of_decide_eq_true (by with_unfolding_all rfl)
  · exact of_decide_eq_true (by with_unfolding_all rfl)

/-- C9: confirmed.  `append_document` stores terms verbatim (the keys
of the appended document's term map are exactly the raw input terms —
no lower-casing), while `search` lower-cases every query term; hence a
query term never contains an ASCII upper-case letter, a stored term
containing one is never equal to any query term, and removing such an
entry from a document's term map changes no search score. -/
theorem C9_uppercase_terms_never_contribute :
    (∀ (tbl : TfIdfTable) (name : String) (terms : List String) (t : String),
      ∃ d, (tbl.appendDocument name terms).documents.getLast? = some d ∧
        ((lookupTM d.2 t).isSome ↔ t ∈ terms)) ∧
    (∀ (q s : String), s ∈ splitQuery q → containsUpper s = false) ∧
    (∀ (q t : String), containsUpper t = true → t ∉ splitQuery q) ∧
    (∀ (q : String) (overall docm : TermMap) (t : String), containsUpper t = true →
      docScore overall (searchTermNormals q) (docm.filter (fun p => p.1 != t)) =
        docScore overall (searchTermNormals q) docm) := by
  refine ⟨?_, splitQuery_all_lower, upper_notin_query, docScore_filter_upper⟩
  intro tbl name terms t
  exact ⟨(name, normalizeTM (countTerms terms) (terms.length : ℚ)),
    appendDocument_getLast tbl name terms, normals_keys terms t⟩

/-- Witness for `C9_uppercase_terms_never_contribute` at the document
term `"Cat"` and query `"cat"`. -/
theorem C9_uppercase_terms_never_contribute_witness :
    (∃ d, (TfIdfTable.emptyTable.appendDocument "d" ["Cat"]).documents.getLast? = some d ∧
      ((lookupTM d.2 "Cat").isSome ↔ "Cat" ∈ ["Cat"])) ∧
    containsUpper "Cat" = true ∧
    ("Cat" ∉ splitQuery "cat Cat") ∧
    docScore [] (searchTermNormals "cat") ([("Cat", 1)].filter (fun p => p.1 != "Cat")) =
      docScore [] (searchTermNormals "cat") [("Cat", 1)] := by
  refine ⟨C9_uppercase_terms_never_contribute.1 TfIdfTable.emptyTable "d" ["Cat"] "Cat", by decide,
    C9_uppercase_terms_never_contribute.2.2.1 "cat Cat" "Cat" (by decide),
    C9_uppercase_terms_never_contribute.2.2.2 "cat" [] [("Cat", 1)] "Cat" (by decide)⟩

/-! ## Rank combiner (`DocumentSearch.run_search`, the fragment that
merges term scores with rank scores and sorts) -/

/-- Lookup in a dict built by repeated assignment
(`rank_mappings[filename] = rank`): the *last* write wins. -/
def lookupLast (m : List (String × ℚ)) (f : String) : Option ℚ :=
  (m.reverse.find? (fun p => p.1 == f)).map Prod.snd

/-- The combiner: `sum_scores`/`sum_ranks` over the inputs,
`scores_weight = 1/2 * sum_scores`, `ranks_weight = 1/2 * sum_ranks`,
keep the term-scored files that appear in the rank mapping, value them
with the weighted sum, and sort descending with Python's stable sort
(`match_scores.sort(reverse=True, key=lambda x: x[1])`, modelled by the
stable `List.mergeSort` on the reversed comparison).  `rank_list` is the
resolved (filename, rank) list in resolution order, whose dict form both
`sum_ranks` and `rank_mappings` are derived from. -/
def combineMatches (term_scores rank_list : List (String × ℚ)) : List (String × ℚ) :=
  let sum_scores := (term_scores.map Prod.snd).sum
  let sum_ranks := (rank_list.map Prod.snd).sum
  let scores_weight := 1/2 * sum_scores
  let ranks_weight := 1/2 * sum_ranks
  let match_scores := term_scores.filterMap (fun fs =>
    match lookupLast rank_list fs.1 with
    | some rank => some (fs.1, scores_weight * fs.2 + ranks_weight * rank)
    | none => none)
  List.mergeSort match_scores (fun a b => decide (b.2 ≤ a.2))

/-- The claim's description of the combined list before sorting: for
every term-scored file present in the resolved rank mapping, the value
`(0.5*sumScores)*termScore + (0.5*sumRanks)*rankValue`, in term-score
order (intersection semantics). -/
def combinedEntries (term_scores rank_list : List (String × ℚ)) : List (String × ℚ) :=
  term_scores.filterMap (fun fs =>
    match lookupLast rank_list fs.1 with
    | some rank => some (fs.1, (1/2 * (term_scores.map Prod.snd).sum) * fs.2 +
        (1/2 * (rank_list.map Prod.snd).sum) * rank)
    | none => none)

theorem combineMatches_eq (ts rs : List (String × ℚ)) :
    combineMatches ts rs = List.mergeSort (combinedEntries ts rs) (fun a b => decide (b.2 ≤ a.2)) := rfl

theorem lookupLast_isSome_iff (rs : List (String × ℚ)) (f : String) :
    (lookupLast rs f).isSome ↔ f ∈ rs.map Prod.fst := by
  unfold lookupLast
  rw [isSome_map_snd, List.find?_isSome]
  constructor
  · rintro ⟨p, hp, hkey⟩
    rw [List.mem_reverse] at hp
    exact List.mem_map.mpr ⟨p, hp, by simpa using hkey⟩
  · intro h
    obtain ⟨p, hp, hkey⟩ := List.mem_map.mp h
    exact ⟨p, List.mem_reverse.mpr hp, by simp [hkey]⟩

theorem mem_combinedEntries (ts rs : List (String × ℚ)) (f : String) (v : ℚ) :
    (f, v) ∈ combinedEntries ts rs ↔
      ∃ s r, (f, s) ∈ ts ∧ lookupLast rs f = some r ∧
        v = (1/2 * (ts.map Prod.snd).sum) * s + (1/2 * (rs.map Prod.snd).sum) * r := by
  unfold combinedEntries
  rw [List.mem_filterMap]
  constructor
  · rintro ⟨fs, hfs, hmatch⟩
    cases hl : lookupLast rs fs.1 with
    | none => rw [hl] at hmatch; cases hmatch
    | some r =>
      rw [hl] at hmatch
      have h1 : fs.1 = f := congrArg Prod.fst (Option.some.inj hmatch)
      have h2 : (1/2 * (ts.map Prod.snd).sum) * fs.2 + (1/2 * (rs.map Prod.snd).sum) * r = v :=
        congrArg Prod.snd (Option.some.inj hmatch)
      refine ⟨fs.2, r, ?_, ?_, h2.symm⟩
      · rw [← h1]; exact hfs
      · rw [← h1]; exact hl
  · rintro ⟨s, r, hmem, hl, hv⟩
    exact ⟨(f, s), hmem, by rw [show ((f, s).1) = f from rfl, hl, hv]⟩

theorem descLe_trans : ∀ (a b c : String × ℚ),
    (fun a b : String × ℚ => decide (b.2 ≤ a.2)) a b = true →
    (fun a b : String × ℚ => decide (b.2 ≤ a.2)) b c = true →
    (fun a b : String × ℚ => decide (b.2 ≤ a.2)) a c = true := by
  intro a b c hab hbc
  simp only [decide_eq_true_eq] at hab hbc ⊢
  exact le_trans hbc hab

theorem descLe_total : ∀ (a b : String × ℚ),
    ((fun a b : String × ℚ => decide (b.2 ≤ a.2)) a b ||
      (fun a b : String × ℚ => decide (b.2 ≤ a.2)) b a) = true := by
  intro a b
  simp only [Bool.or_eq_true, decide_eq_true_eq]
  exact le_total b.2 a.2

/-- C5: confirmed.  For every pair of term-score and resolved-rank
inputs the combiner's output (1) contains a file path iff it occurs in
both the term-score list and the rank mapping, (2) is a permutation of
the claim's valued intersection list (so every entry carries the value
`(0.5*sumScores)*termScore + (0.5*sumRanks)*rankValue`), (3) is sorted
descending by value, and (4) is stable: any two tied entries keep the
relative order they have in the term-score list. -/
theorem C5_combiner_intersection_weighted_sorted_stable (ts rs : List (String × ℚ)) :
    (∀ f : String, f ∈ (combineMatches ts rs).map Prod.fst ↔
        (f ∈ ts.map Prod.fst ∧ f ∈ rs.map Prod.fst)) ∧
      (combineMatches ts rs).Perm (combinedEntries ts rs) ∧
      (combineMatches ts rs).Pairwise (fun a b => b.2 ≤ a.2) ∧
      (∀ a b : String × ℚ, [a, b].Sublist (combinedEntries ts rs) → a.2 = b.2 →
        [a, b].Sublist (combineMatches ts rs)) := by
  have hperm : (combineMatches ts rs).Perm (combinedEntries ts rs) := by
    rw [combineMatches_eq]
    exact List.mergeSort_perm (combinedEntries ts rs) _
  refine ⟨?_, hperm, ?_, ?_⟩
  · intro f
    rw [List.mem_map]
    constructor
    · rintro ⟨p, hp, hf⟩
      subst hf
      have hpm : (p.1, p.2) ∈ combinedEntries ts rs := hperm.mem_iff.mp hp
      obtain ⟨s, r, hs, hr, _⟩ := (mem_combinedEntries ts rs p.1 p.2).mp hpm
      constructor
      · exact List.mem_map.mpr ⟨(p.1, s), hs, rfl⟩
      · rw [← lookupLast_isSome_iff, hr]
        rfl
    · rintro ⟨hts, hrs⟩
      obtain ⟨p, hp, hf⟩ := List.mem_map.mp hts
      subst hf
      obtain ⟨r, hr⟩ := Option.isSome_iff_exists.mp ((lookupLast_isSome_iff rs p.1).mpr hrs)
      have hmem : (p.1, (1/2 * (ts.map Prod.snd).sum) * p.2 +
          (1/2 * (rs.map Prod.snd).sum) * r) ∈ combinedEntries ts rs :=
        (mem_combinedEntries ts rs p.1 _).mpr ⟨p.2, r, hp, hr, rfl⟩
      exact ⟨_, hperm.mem_iff.mpr hmem, rfl⟩
  · rw [combineMatches_eq]
    have h := List.sorted_mergeSort descLe_trans descLe_total (combinedEntries ts rs)
    exact h.imp (fun hab => by simpa using hab)
  · intro a b hsub htie
    rw [combineMatches_eq]
    apply List.sublist_mergeSort descLe_trans descLe_total _ hsub
    constructor
    · intro b' hb'
      rw [List.mem_singleton] at hb'
      subst hb'
      simp [htie]
    · simp

/-- Witness for `C5_combiner_intersection_weighted_sorted_stable`:
two tied entries keep their original order. -/
theorem C5_combiner_intersection_weighted_sorted_stable_witness :
    [(("a" : String), (0:ℚ)), ("b", 0)].Sublist
      (combineMatches [("a", 0), ("b", 0)] [("a", 0), ("b", 0)]) := by
  have hsub : [(("a" : String), (0:ℚ)), ("b", 0)].Sublist
      (combinedEntries [("a", 0), ("b", 0)] [("a", 0), ("b", 0)]) := by
    rw [show combinedEntries [(("a" : String), (0:ℚ)), ("b", 0)] [("a", 0), ("b", 0)] =
      [(("a" : String), (0:ℚ)), ("b", 0)] from by with_unfolding_all rfl]
  exact (C5_combiner_intersection_weighted_sorted_stable [("a", 0), ("b", 0)] [("a", 0), ("b", 0)]).2.2.2 ("a", 0) ("b", 0) hsub rfl

/-! ## Scan worker (`filesearcher.py`, class `FileSearcherThread`)

Strings handled by the scanner are modelled as character lists. -/

/-- Helper for Python `str.find`: the least index at which `sub` occurs
in the remaining hay, if any. -/
def pyFindAux (sub : List Char) : List Char → Nat → Option Nat
  | [], i => if sub.isPrefixOf ([] : List Char) then some i else none
  | c :: t, i => if sub.isPrefixOf (c :: t) then some i else pyFindAux sub t (i + 1)

/-- Python `hay.find(sub)`: first occurrence index, `-1` if absent. -/
def pyFind (hay sub : List Char) : Int :=
  match pyFindAux sub hay 0 with
  | some n => (n : Int)
  | none => -1

/-- Python `sub in hay` for strings. -/
def strContains (hay sub : List Char) : Bool := (pyFindAux sub hay 0).isSome

/-- Python slice-index resolution for `s[a:b]`: negative indices count
from the end, and indices are clamped into `[0, len]`. -/
def pySliceIndex (len : Nat) (i : Int) : Nat :=
  if i < 0 then ((len : Int) + i).toNat else min i.toNat len

/-- Python `s[a:b]`. -/
def pySlice (l : List Char) (a b : Int) : List Char :=
  (l.take (pySliceIndex l.length b)).drop (pySliceIndex l.length a)

/-- The ellipsis marker the code prepends/appends on truncation. -/
def ellipsisMarker : List Char := "[…]".data

/-- `FileSearcherThread._limit_line`.  Note the asymmetry copied from
the source: the line is lower-cased for the `find`, but the needle
`self._target_string` is *not* (`line.lower().find(self._target_string)`),
while the caller's match test lower-cases both sides.
`int(self.max_line_len/2)` truncates; for the non-negative setting this
is Nat division. -/
def limitLine (max_line_len : Nat) (target_string line : List Char) : List Char :=
  let single_side_len : Int := (max_line_len / 2 : Nat)
  let loc : Int := pyFind (line.map Char.toLower) target_string
  let start0 : Int := loc - single_side_len
  let start : Int := if start0 < 0 then 0 else start0
  let e0 : Int := loc + (target_string.length : Int) + single_side_len
  let e : Int := if e0 ≥ (line.length : Int) then (line.length : Int) - 1 else e0
  let limited0 : List Char := if start ≠ 0 then ellipsisMarker else []
  let limited1 := limited0 ++ pySlice line start e
  if e ≠ (line.length : Int) - 1 then limited1 ++ ellipsisMarker else limited1

/-- A 150-character line whose only case-insensitive match for the
query `"A"` sits at index 120. -/
def exLine : List Char := List.replicate 120 'x' ++ 'a' :: List.replicate 29 'x'

set_option maxRecDepth 2000 in
/-- C8: refuted (`code_bug`).  `_search_file` matches case-insensitively
(`target.lower() in line.lower()`), but `_limit_line` locates the match
with `line.lower().find(self._target_string)` — the needle is not
lower-cased.  For the query `"A"` on a 150-character line whose only
match (case-insensitively) is at index 120, `find` returns `-1`, so the
snippet is the first 50 characters plus a trailing marker: it is not
centred on the match — it does not even contain the matched character.
(The line is long enough that `_search_file` would call `_limit_line`:
150 > 100 + 1.) -/
theorem C8_snippet_not_centred_on_match :
    strContains (exLine.map Char.toLower) (['A'].map Char.toLower) = true ∧
      pyFind (exLine.map Char.toLower) (['A'].map Char.toLower) = 120 ∧
      exLine.length > 100 + ['A'].length ∧
      limitLine 100 ['A'] exLine = List.replicate 50 'x' ++ ellipsisMarker ∧
      'a' ∉ limitLine 100 ['A'] exLine := by decide

/-- The `FileSearcherThread` settings used by `_search_file`/`run`. -/
structure SearchConfig where
  skip_binary : Bool
  show_warning_binary_skip : Bool
  show_warning_on_open_fail : Bool
  show_warning_size_skip : Bool
  max_line_len : Nat
deriving Repr

/-- `"Skipped binary file."`. -/
def binarySkipText : List Char := "Skipped binary file.".data

/-- The open-failure warning text. -/
def openFailText : List Char :=
  "Failed to open file. This could be due to unknown/unspecified encoding.".data

/-- `OrderedDict` assignment `ret[k] = v`: update in place, append a
fresh key at the end. -/
def odSet (m : List (Nat × List Char)) (k : Nat) (v : List Char) : List (Nat × List Char) :=
  match m with
  | [] => [(k, v)]
  | (k', v') :: rest => if k' = k then (k, v) :: rest else (k', v') :: odSet rest k v

/-- Result of scanning one encoding's line stream: either the binary
check returned early (with a fresh dict), or the loop finished. -/
inductive ScanOutcome where
  | earlyReturn (ret : List (Nat × List Char))
  | finished (ret : List (Nat × List Char))
deriving DecidableEq, Repr

/-- The per-line loop of `_search_file` under one encoding
(`enumerate(target_file, start=1)`): binary check (early return with a
*fresh* dict, optionally carrying the warning at key 0), then the
case-insensitive containment test, length-triggered truncation, and
accumulation into `ret`. -/
def scanLines (cfg : SearchConfig) (target_string : List Char) :
    List (List Char) → Nat → List (Nat × List Char) → ScanOutcome
  | [], _, ret => .finished ret
  | line_content :: rest, line_num, ret =>
    if cfg.skip_binary && strContains line_content ['\x00'] then
      .earlyReturn (if cfg.show_warning_binary_skip then [(0, binarySkipText)] else [])
    else
      let ret' :=
        if strContains (line_content.map Char.toLower) (target_string.map Char.toLower) then
          odSet ret line_num
            (if line_content.length > cfg.max_line_len + target_string.length then
              limitLine cfg.max_line_len target_string line_content
            else line_content)
        else ret
      scanLines cfg target_string rest (line_num + 1) ret'

/-- The encoding loop of `_search_file`.  An attempt is the list of
lines the decoder yields before either finishing (`failed = false`) or
raising a decode error mid-file (`failed = true`, the `except: continue`
path).  `ret` was created once before the loop, so entries accumulated
during a failed attempt survive into the next attempt. -/
def searchFileGo (cfg : SearchConfig) (target_string : List Char) :
    List (List (List Char) × Bool) → List (Nat × List Char) → List (Nat × List Char)
  | [], ret => if cfg.show_warning_on_open_fail then odSet ret 0 openFailText else ret
  | (lines, failed) :: rest, ret =>
    match scanLines cfg target_string lines 1 ret with
    | .earlyReturn r => r
    | .finished r => if failed then searchFileGo cfg target_string rest r else r

/-- `FileSearcherThread._search_file`, parametrised by the per-encoding
decode outcomes. -/
def searchFile (cfg : SearchConfig) (target_string : List Char)
    (attempts : List (List (List Char) × Bool)) : List (Nat × List Char) :=
  searchFileGo cfg target_string attempts []

/-- C10: confirmed.  The match dict is created once before the encoding
loop and is not cleared when an encoding fails partway: first encoding
yields the line `"a cat"` (which matches `"cat"` at line 1) and then
raises; the second encoding succeeds with the single line `"xyz"`, which
contains no match — yet the returned mapping still holds the entry
accumulated under the failed first attempt. -/
theorem C10_stale_matches_survive_failed_encoding :
    searchFile ⟨true, false, false, false, 100⟩ "cat".data
        [(["a cat".data], true), (["xyz".data], false)] = [(1, "a cat".data)] ∧
      strContains ("xyz".data.map Char.toLower) ("cat".data.map Char.toLower) = false := by
  decide

/-- One candidate file as `run` observes it: whether its extension is
ignored, whether its size exceeds the limit, what `_search_file` would
return for it, and whether the 200 ms progress-throttle test
(`time.time() > last_update + 0.2`) would pass at this file — the last
is an environment oracle, since it depends on real time. -/
structure FileTask where
  filepath : String
  ignored : Bool
  oversized : Bool
  result : List (Nat × List Char)
  tick : Bool
deriving Repr

/-- A message on the result queue: a full result
`{"filepath", "result", "files_searched"}` or a progress-only update
`{"files_searched"}`. -/
inductive QueueMsg where
  | result (filepath : String) (res : List (Nat × List Char)) (files_searched : Nat)
  | progress (files_searched : Nat)
deriving DecidableEq, Repr

/-- The size-skip placeholder text (the code interpolates the size in
MB; the text content is irrelevant to the claims). -/
def sizeSkipText : List Char := "Skipped file due to size.".data

/-- `_stop_requested` at the `k`-th check: the `threading.Event` is
observed set from check `c` on (`none` = never set). -/
def stopRequested (cancelAt : Option Nat) (k : Nat) : Bool :=
  match cancelAt with
  | some c => decide (c ≤ k)
  | none => false

/-- The file loop of `FileSearcherThread.run`, flattened over the
candidate files (`k` counts the per-file cancellation checks, `fs` is
`self._files_searched`).  On observing cancellation the code `return`s
immediately; only after exhausting the list does it push the final
progress message and block on `self._result_queue.join()` — the boolean
result records whether that join was reached. -/
def runLoop (cfg : SearchConfig) (cancelAt : Option Nat) :
    List FileTask → Nat → Nat → List QueueMsg × Bool
  | [], _, fs => ([QueueMsg.progress fs], true)
  | f :: rest, k, fs =>
    if stopRequested cancelAt k then ([], false)
    else if f.ignored then runLoop cfg cancelAt rest (k + 1) fs
    else
      let rfs :=
        if f.oversized then
          ((if cfg.show_warning_size_skip then [(0, sizeSkipText)] else []), fs)
        else (f.result, fs + 1)
      let rest_out := runLoop cfg cancelAt rest (k + 1) rfs.2
      let msgs :=
        if rfs.1.length ≠ 0 then [QueueMsg.result f.filepath rfs.1 rfs.2]
        else if f.tick then [QueueMsg.progress rfs.2] else []
      (msgs ++ rest_out.1, rest_out.2)

/-- `FileSearcherThread.run`. -/
def runModel (cfg : SearchConfig) (files : List FileTask) (cancelAt : Option Nat) :
    List QueueMsg × Bool :=
  runLoop cfg cancelAt files 0 0

/-- C3, counterexample: with cancellation observed at the very first
check, the worker returns immediately — it pushes no message at all (in
particular no final progress message) and never executes the queue
join.  This refutes the claim that a cancelled worker still pushes a
final progress message and blocks on the join. -/
theorem C3_cancelled_worker_pushes_nothing_and_never_joins :
    runModel ⟨true, false, false, false, 100⟩
      [⟨"f.txt", false, false, [(1, "hit".data)], false⟩] (some 0) = ([], false) := by decide

/-- Observed cancellation always skips the join (and the final
message): the run's terminal join flag is false whenever the
cancellation point falls within the candidate list. -/
theorem runLoop_cancel_no_join (cfg : SearchConfig) :
    ∀ (files : List FileTask) (k fs c : Nat), k ≤ c → c < k + files.length →
      (runLoop cfg (some c) files k fs).2 = false := by
  intro files
  induction files with
  | nil =>
    intro k fs c hkc h
    simp only [List.length_nil, Nat.add_zero] at h
    omega
  | cons f rest ih =>
    intro k fs c hkc h
    by_cases hstop : stopRequested (some c) k = true
    · rw [show runLoop cfg (some c) (f :: rest) k fs = ([], false) from by
        unfold runLoop; rw [if_pos hstop]]
    · have hck : k < c := by
        simp only [stopRequested, decide_eq_true_eq] at hstop
        omega
      unfold runLoop
      rw [if_neg hstop]
      by_cases hig : f.ignored = true
      · rw [if_pos hig]
        exact ih (k + 1) fs c (by omega) (by simp only [List.length_cons] at h; omega)
      · rw [if_neg hig]
        show (runLoop cfg (some c) rest (k + 1) _).2 = false
        exact ih (k + 1) _ c (by omega) (by simp only [List.length_cons] at h; omega)

theorem getLast?_append_right {α : Type} (l1 l2 : List α) (h : l2 ≠ []) :
    (l1 ++ l2).getLast? = l2.getLast? := by
  induction l1 with
  | nil => rfl
  | cons a t ih =>
    rw [List.cons_append]
    rw [show ((a :: (t ++ l2)).getLast?) = (t ++ l2).getLast? from ?_]
    · exact ih
    · cases he : t ++ l2 with
      | nil => exact absurd (List.append_eq_nil.mp he).2 h
      | cons b u => rw [List.getLast?_cons_cons]

/-- Normal completion always pushes a final progress-only message and
then joins. -/
theorem runLoop_complete_joins (cfg : SearchConfig) :
    ∀ (files : List FileTask) (k fs : Nat),
      (runLoop cfg none files k fs).2 = true ∧
        (runLoop cfg none files k fs).1 ≠ [] ∧
        (∃ n, (runLoop cfg none files k fs).1.getLast? = some (QueueMsg.progress n)) := by
  intro files
  induction files with
  | nil =>
    intro k fs
    exact ⟨rfl, by simp [runLoop], ⟨fs, rfl⟩⟩
  | cons f rest ih =>
    intro k fs
    unfold runLoop
    rw [show stopRequested none k = false from rfl]
    simp only [Bool.false_eq_true, if_false]
    by_cases hig : f.ignored = true
    · rw [if_pos hig]
      exact ih (k + 1) fs
    · rw [if_neg hig]
      obtain ⟨hj, hne, n, hlast⟩ := ih (k + 1)
        ((if f.oversized then
          ((if cfg.show_warning_size_skip then [(0, sizeSkipText)] else []), fs)
        else (f.result, fs + 1)).2)
      refine ⟨hj, ?_, ⟨n, ?_⟩⟩
      · show _ ++ _ ≠ ([] : List QueueMsg)
        intro hnil
        exact hne (List.append_eq_nil.mp hnil).2
      · show (_ ++ _ : List QueueMsg).getLast? = _
        rw [getLast?_append_right _ _ hne]
        exact hlast

/-- C3, amended: the final progress-only message and the blocking queue
join happen exactly on the normal-completion path.  When the worker
observes cancellation (the flag is set before some check within the
candidate list) it returns immediately without joining; when
cancellation is never observed it terminates with a final progress-only
message as the last queue message and then blocks on the join. -/
theorem C3_final_message_and_join_only_without_cancellation :
    (∀ (cfg : SearchConfig) (files : List FileTask) (c : Nat), c < files.length →
      (runModel cfg files (some c)).2 = false) ∧
    (∀ (cfg : SearchConfig) (files : List FileTask),
      (runModel cfg files none).2 = true ∧
        ∃ n, (runModel cfg files none).1.getLast? = some (QueueMsg.progress n)) := by
  constructor
  · intro cfg files c h
    exact runLoop_cancel_no_join cfg files 0 0 c (Nat.zero_le c) (by simpa using h)
  · intro cfg files
    exact ⟨(runLoop_complete_joins cfg files 0 0).1, (runLoop_complete_joins cfg files 0 0).2.2⟩

/-- Witness for `C3_final_message_and_join_only_without_cancellation` on
a one-file candidate list with cancellation at the first check. -/
theorem C3_final_message_and_join_only_without_cancellation_witness :
    (0 < ([⟨"f.txt", false, false, [(1, "hit".data)], false⟩] : List FileTask).length) ∧
      (runModel ⟨true, false, false, false, 100⟩
        [⟨"f.txt", false, false, [(1, "hit".data)], false⟩] (some 0)).2 = false ∧
      (runModel ⟨true, false, false, false, 100⟩
        [⟨"f.txt", false, false, [(1, "hit".data)], false⟩] none).2 = true :=
  ⟨by decide,
    C3_final_message_and_join_only_without_cancellation.1 ⟨true, false, false, false, 100⟩
      [⟨"f.txt", false, false, [(1, "hit".data)], false⟩] 0 (by decide),
    (C3_final_message_and_join_only_without_cancellation.2 ⟨true, false, false, false, 100⟩
      [⟨"f.txt", false, false, [(1, "hit".data)], false⟩]).1⟩

/-! ## Sink rewriting always mutates (completing claim C2)

A sink-linking step touches the `out_counts` of no position other than
the one it visits, and the step visiting a sink position sets that
`out_counts` to the (fixed) node count. -/

/-- A step at `j` leaves the out-degree stored at any other position
unchanged. -/
theorem step_out_other (N : Nat) (g : Graph) (j p : Nat) (h : j ≠ p) :
    ((applySinkStep N g j).nodes.get? p).map GraphNode.out_counts =
      (g.nodes.get? p).map GraphNode.out_counts := by
  unfold applySinkStep
  cases hj : g.nodes.get? j with
  | none => rfl
  | some n =>
    simp only [hj]
    by_cases hz : n.out_counts = 0
    · rw [if_pos hz]
      show ((Graph.addLinkToAllNodes _ _).nodes.get? p).map _ = _
      unfold Graph.addLinkToAllNodes
      rw [List.get?_map, get?_modifyIdx, if_neg (fun hh => h hh.symm)]
      cases g.nodes.get? p <;> rfl
    · rw [if_neg hz]

/-- The step visiting a sink position sets its out-degree to `N`. -/
theorem step_out_self_zero (N : Nat) (g : Graph) (p : Nat) (n : GraphNode)
    (hp : g.nodes.get? p = some n) (hz : n.out_counts = 0) :
    ((applySinkStep N g p).nodes.get? p).map GraphNode.out_counts = some N := by
  unfold applySinkStep
  simp only [hp]
  rw [if_pos hz]
  show ((Graph.addLinkToAllNodes _ _).nodes.get? p).map _ = _
  unfold Graph.addLinkToAllNodes
  rw [List.get?_map, get?_modifyIdx, if_pos rfl, hp]
  rfl

/-- Folding steps that all avoid `p` preserves the out-degree at `p`. -/
theorem fold_out_preserve (N : Nat) (p : Nat) :
    ∀ (js : List Nat) (g : Graph), (∀ j ∈ js, j ≠ p) →
      (((js.foldl (applySinkStep N) g).nodes.get? p).map GraphNode.out_counts) =
        ((g.nodes.get? p).map GraphNode.out_counts) := by
  intro js
  induction js with
  | nil => intro g _; rfl
  | cons j rest ih =>
    intro g hne
    rw [List.foldl_cons, ih (applySinkStep N g j)
      (fun x hx => hne x (List.mem_cons_of_mem j hx))]
    exact step_out_other N g j p (hne j (List.mem_cons_self j rest))

/-- After `_apply_sink_linking`, a node that was a sink carries
out-degree equal to the node count. -/
theorem sink_out_after (g : Graph) (p : Nat) (n : GraphNode)
    (hp : g.nodes.get? p = some n) (hz : n.out_counts = 0) :
    ((g.applySinkLinking.nodes.get? p).map GraphNode.out_counts) = some g.nodes.length := by
  unfold Graph.applySinkLinking
  have hplt : p < g.nodes.length := by
    by_contra hge
    rw [List.get?_eq_none.mpr (by omega)] at hp
    cases hp
  have hsplit : List.range g.nodes.length =
      List.range p ++ p :: List.map (fun x => p + (x + 1)) (List.range (g.nodes.length - p - 1)) := by
    have h1 : g.nodes.length = p + (g.nodes.length - p - 1 + 1) := by omega
    rw [h1, List.range_add, List.range_succ_eq_map]
    simp [Function.comp]
  rw [hsplit, List.foldl_append, List.foldl_cons]
  rw [fold_out_preserve _ p _ _ (by
    intro x hx
    obtain ⟨y, _, hy⟩ := List.mem_map.mp hx
    omega)]
  have hmap : (((List.range p).foldl (applySinkStep g.nodes.length) g).nodes.get? p).map
      GraphNode.out_counts = some 0 := by
    rw [fold_out_preserve g.nodes.length p (List.range p) g (fun x hx => by
      have := List.mem_range.mp hx
      omega), hp]
    simp [hz]
  cases hget : ((List.range p).foldl (applySinkStep g.nodes.length) g).nodes.get? p with
  | none => rw [hget] at hmap; cases hmap
  | some m =>
    rw [hget] at hmap
    have hz' : m.out_counts = 0 := by simpa using hmap
    exact step_out_self_zero g.nodes.length _ p m hget hz'

/-- A graph containing a sink is always mutated by `PageRank.__init__`
(the sink's out-degree changes from 0 to the positive node count). -/
theorem sink_graph_mutated (g : Graph) (p : Nat) (n : GraphNode)
    (hp : g.nodes.get? p = some n) (hz : n.out_counts = 0) :
    (pageRankInit g).2 ≠ g := by
  intro he
  have h1 : ((g.applySinkLinking.nodes.get? p).map GraphNode.out_counts) = some g.nodes.length :=
    sink_out_after g p n hp hz
  have h2 : g.applySinkLinking = g := he
  rw [h2, hp] at h1
  have h3 : n.out_counts = g.nodes.length := by simpa using h1
  have hplt : p < g.nodes.length := by
    by_contra hge
    rw [List.get?_eq_none.mpr (by omega)] at hp
    cases hp
  omega

/-- C2, amended: `PageRank.__init__` leaves the original graph
completely unchanged exactly when the graph has no sink — `copy.copy`
is a shallow copy sharing every `GraphNode`, so sink rewriting mutates
the original precisely when some node has zero out-degree. -/
theorem C2_original_unchanged_iff_no_sink (g : Graph) :
    (pageRankInit g).2 = g ↔ (∀ n ∈ g.nodes, n.out_counts ≠ 0) := by
  constructor
  · intro he
    intro n hn hz
    obtain ⟨p, hp⟩ := List.get?_of_mem hn
    exact sink_graph_mutated g p n hp hz he
  · intro h
    show g.applySinkLinking = g
    unfold Graph.applySinkLinking
    apply foldl_fixed
    intro i _
    unfold applySinkStep
    cases hg : g.nodes.get? i with
    | none => rfl
    | some n =>
      have hn : n ∈ g.nodes := List.get?_mem hg
      simp [h n hn]

/-- Witness for `C2_original_unchanged_iff_no_sink` at the sink-free
two-node cycle. -/
theorem C2_original_unchanged_iff_no_sink_witness :
    (pageRankInit twoCycleGraph).2 = twoCycleGraph :=
  (C2_original_unchanged_iff_no_sink twoCycleGraph).mpr (by decide)

end DocSearch
